import Mathlib

/-!
Shallow embedding of `graphwalker_sqlalchemy.py`: extraction of a directed
graph (vertices, edges) from an object model with relationships and
inheritance.

Modelling conventions, matching the source file:
* A model class is a `ModelType`; the set of classes reachable by the
  reflection layer is a `ModelGraph`, a list of `ModelType`s addressed by
  position (object references become `Nat` indices).
* `sqlalchemy.inspect` either yields a mapper with the class's
  relationships or raises `NoInspectionAvailable`; this is the
  `Option (List (String × Relation))` field `relationships` (`none` models
  the exception, which `_iter_relationship_properties` swallows).
* `relation.direction.name` is the `direction : String` field;
  `relation.argument` resolution (`_get_relation_target`) is modelled by the
  provider-resolved index `target : Nat`; `relation.backref` (with its
  tuple case already folded to the first component) is `backref`;
  the column-name comprehensions over `local_columns` / `remote_side`
  are modelled by the provider supplying the column-name lists.
* `hashlib.sha1(...).hexdigest()` is modelled as an injective deterministic
  function of the key (ideal collision-free digest), concretely the
  identity on strings.
* Python `dict`s with insertion order are association lists
  (`List (String × _)`); a new key is appended at the end, an update keeps
  the entry in place, exactly like `dict` assignment.
* The two recursive passes are realised as an explicit depth-first
  work-list with a fuel parameter (pushing a node's children on the front
  of the stack reproduces the recursion's visiting order exactly); fuel
  exhaustion is an artefact of the encoding and is proved unreachable for
  the fuel `extract` supplies.
-/

set_option synthInstance.maxSize 1024
set_option maxHeartbeats 1000000

deriving instance DecidableEq for Except

structure Relation where
  target : Nat
  direction : String
  backref : Option String
  local_columns : List String
  remote_side : List String
  is_self_referential : Bool
deriving DecidableEq, Repr

structure ModelType where
  module : String
  name : String
  relationships : Option (List (String × Relation))
  subclasses : List Nat
  bases : List String
deriving DecidableEq, Repr

structure ModelGraph where
  types : List ModelType
deriving DecidableEq, Repr

structure VertexProps where
  model_name : String
  module_name : String
  base_classes : List String
deriving DecidableEq, Repr

structure Vertex where
  id : String
  label : String
  searchableComponents : List String
  properties : VertexProps
deriving DecidableEq, Repr

structure FieldProps where
  name : String
  back_reference : Option String
  source_columns : List String
  dest_columns : List String
deriving DecidableEq, Repr

/-- Properties of an edge.  Relationship edges carry a `fields` map and a
`multiplicity`; inheritance edges are created with neither key present in
the Python dict, modelled by `none`. -/
structure EdgeProps where
  type : String
  is_self_referential : Bool
  fields : Option (List (String × FieldProps))
  multiplicity : Option String
deriving DecidableEq, Repr

structure Edge where
  id : String
  label : Option String
  source : String
  dest : String
  properties : EdgeProps
deriving DecidableEq, Repr

structure Graph where
  vertices : List Vertex
  edges : List Edge
deriving DecidableEq, Repr

inductive ExtractError where
  | fuelExhausted
  | keyError (key : String)
deriving DecidableEq, Repr

abbrev VertexMap := List (String × Vertex)
abbrev EdgeMap := List (String × Edge)

/-- The module-level `_RELATION_TYPE_MAP` dict (Sequelize relation name to
multiplicity). -/
def RELATION_TYPE_MAP : List (String × String) :=
  [("MANYTOMANY", "*..*"),
   ("MANYTOONE", "*..1"),
   ("ONETOMANY", "1..*"),
   ("ONETOONE", "1..1"),
   ("inheritance", "1..1")]

/-- Model of `_make_hash_id`: `hashlib.sha1(v.encode('utf-8')).hexdigest()`.
The digest is an injective deterministic function of its input (ideal
collision-free hash); we take the identity on strings. -/
def make_hash_id (v : String) : String := v

/-- Model of `get_class_name`: for mapped classes this is the class's
`__name__` (the mapper/`class_` branches are the provider's concern). -/
def get_class_name (t : ModelType) : String := t.name

/-- Model of `get_vertex_key`: the format string joining `__module__` and
the class name with a dot. -/
def get_vertex_key (t : ModelType) : String :=
  t.module ++ "." ++ get_class_name t

/-- Model of `_iter_relationship_properties`: when `sa_inspect` raises
`NoInspectionAvailable` the mapper is `None` and nothing is yielded,
otherwise all named relationships are yielded in declaration order. -/
def iter_relationship_properties (t : ModelType) : List (String × Relation) :=
  t.relationships.getD []

/-- A placeholder class used to make index lookup total; an out-of-range
index never occurs for the closed model graphs extraction is run on. -/
def defaultModelType : ModelType :=
  { module := "", name := "", relationships := some [], subclasses := [], bases := [] }

def typeAt (g : ModelGraph) (i : Nat) : ModelType :=
  g.types.getD i defaultModelType

/-- Indices of the targets of a class's relationships
(`_get_relation_target` applied to each relationship, as indices). -/
def rel_targets (t : ModelType) : List Nat :=
  (iter_relationship_properties t).map (fun p => p.2.target)

/-- The children the vertex pass recurses into: relationship targets first,
then `__subclasses__()`. -/
def child_indices (t : ModelType) : List Nat :=
  rel_targets t ++ t.subclasses

/-- Work-list model of `_r_extract_vertices`.  Popping a node, checking the
accumulated map, storing the vertex and pushing the node's relationship
targets followed by its subclasses on the front of the stack performs the
same map operations in the same order as the Python recursion. -/
def r_extract_vertices (g : ModelGraph) (fq_vertex_labels : Bool) :
    Nat → List Nat → VertexMap → Option VertexMap
  | _, [], vertex_map => some vertex_map
  | 0, _ :: _, _ => none
  | fuel + 1, i :: pending, vertex_map =>
    let t := typeAt g i
    let qualified_model_name := get_vertex_key t
    let vertex_id := make_hash_id qualified_model_name
    if (vertex_map.lookup vertex_id).isSome then
      r_extract_vertices g fq_vertex_labels fuel pending vertex_map
    else
      let vertex_name := if fq_vertex_labels then qualified_model_name else get_class_name t
      let v : Vertex :=
        { id := vertex_id
          label := vertex_name
          searchableComponents := [get_class_name t]
          properties :=
            { model_name := get_class_name t
              module_name := t.module
              base_classes := t.bases } }
      r_extract_vertices g fq_vertex_labels fuel
        (child_indices t ++ pending) (vertex_map ++ [(vertex_id, v)])

/-- The composed edge key: the format string `type(source,dest)` used by
both edge kinds. -/
def compose_edge_qname (relation_type source_q dest_q : String) : String :=
  relation_type ++ "(" ++ source_q ++ "," ++ dest_q ++ ")"

/-- Python dict assignment `m[k] = v` on an insertion-ordered dict:
update in place when the key exists, append otherwise. -/
def dict_insert (m : List (String × FieldProps)) (k : String) (v : FieldProps) :
    List (String × FieldProps) :=
  if (m.lookup k).isSome then
    m.map (fun p => if p.1 == k then (k, v) else p)
  else
    m ++ [(k, v)]

/-- The relationship loop of `_r_extract_edges`: for each relationship,
either create a fresh edge (looking the multiplicity up in
`RELATION_TYPE_MAP`, a lookup that raises `KeyError` for an unknown
direction) or fold the relationship's field metadata into the existing
edge under the same composed id. -/
def process_relations (g : ModelGraph)
    (source_qualified_model_name source_vertex_id : String) :
    List (String × Relation) → EdgeMap → Except ExtractError EdgeMap
  | [], edge_map => .ok edge_map
  | (relation_name, relation) :: rest, edge_map =>
    let target := typeAt g relation.target
    let dest_qualified_model_name := get_vertex_key target
    let dest_vertex_id := make_hash_id dest_qualified_model_name
    let relation_type := relation.direction
    let edge_qname :=
      compose_edge_qname relation_type source_qualified_model_name dest_qualified_model_name
    let edge_id := make_hash_id edge_qname
    let field_properties : FieldProps :=
      { name := relation_name
        back_reference := relation.backref
        source_columns := relation.local_columns
        dest_columns := relation.remote_side }
    match edge_map.lookup edge_id with
    | none =>
      match RELATION_TYPE_MAP.lookup relation_type with
      | none => .error (.keyError relation_type)
      | some multiplicity =>
        let edge : Edge :=
          { id := edge_id
            label := none
            source := source_vertex_id
            dest := dest_vertex_id
            properties :=
              { type := relation_type
                is_self_referential := relation.is_self_referential
                fields := some [(relation_name, field_properties)]
                multiplicity := some multiplicity } }
        process_relations g source_qualified_model_name source_vertex_id rest
          (edge_map ++ [(edge_id, edge)])
    | some existing_edge =>
      match existing_edge.properties.fields with
      | none => .error (.keyError "fields")
      | some fs =>
        let updated : Edge :=
          { existing_edge with
              properties :=
                { existing_edge.properties with
                    fields := some (dict_insert fs relation_name field_properties) } }
        process_relations g source_qualified_model_name source_vertex_id rest
          (edge_map.map (fun p => if p.1 == edge_id then (edge_id, updated) else p))

/-- The subclass loop of `_r_extract_edges`: one inheritance edge per
immediate subclass, created only if absent; its properties dict has only
the `type` and `is_self_referential` keys. -/
def process_inheritance (g : ModelGraph)
    (source_qualified_model_name source_vertex_id : String) :
    List Nat → EdgeMap → EdgeMap
  | [], edge_map => edge_map
  | j :: rest, edge_map =>
    let child := typeAt g j
    let dest_qualified_model_name := get_vertex_key child
    let dest_vertex_id := make_hash_id dest_qualified_model_name
    let edge_qname :=
      compose_edge_qname "inheritance" source_qualified_model_name dest_qualified_model_name
    let edge_id := make_hash_id edge_qname
    let edge_map' :=
      match edge_map.lookup edge_id with
      | some _ => edge_map
      | none =>
        edge_map ++
          [(edge_id,
            { id := edge_id
              label := none
              source := source_vertex_id
              dest := dest_vertex_id
              properties :=
                { type := "inheritance"
                  is_self_referential := false
                  fields := none
                  multiplicity := none } : Edge })]
    process_inheritance g source_qualified_model_name source_vertex_id rest edge_map'

/-- Work-list model of `_r_extract_edges`.  The visited set holds qualified
names (not hash ids) and is checked and extended before any work on the
node; recursion descends into subclasses only. -/
def r_extract_edges (g : ModelGraph) :
    Nat → List Nat → List String → EdgeMap → Except ExtractError EdgeMap
  | _, [], _, edge_map => .ok edge_map
  | 0, _ :: _, _, _ => .error .fuelExhausted
  | fuel + 1, i :: pending, visited, edge_map =>
    let t := typeAt g i
    let source_qualified_model_name := get_vertex_key t
    if visited.contains source_qualified_model_name then
      r_extract_edges g fuel pending visited edge_map
    else
      let visited' := source_qualified_model_name :: visited
      let source_vertex_id := make_hash_id source_qualified_model_name
      match process_relations g source_qualified_model_name source_vertex_id
          (iter_relationship_properties t) edge_map with
      | .error e => .error e
      | .ok edge_map' =>
        let edge_map'' :=
          process_inheritance g source_qualified_model_name source_vertex_id
            t.subclasses edge_map'
        r_extract_edges g fuel (t.subclasses ++ pending) visited' edge_map''

/-- Code-point lexicographic comparison on character lists: the order
Python's `sorted` uses on `str`. -/
def charListLe : List Char → List Char → Bool
  | [], _ => true
  | _ :: _, [] => false
  | a :: as, b :: bs =>
    if a.toNat < b.toNat then true
    else if b.toNat < a.toNat then false
    else charListLe as bs

def strLe (a b : String) : Bool := charListLe a.data b.data

/-- Insertion of a string into a sorted list, using the code-point
lexicographic order that Python's `sorted` uses on `str`. -/
def insertSorted (x : String) : List String → List String
  | [] => [x]
  | y :: ys => if strLe x y then x :: y :: ys else y :: insertSorted x ys

/-- Model of Python's `sorted` on the field-name keys. -/
def sortStrings : List String → List String
  | [] => []
  | x :: xs => insertSorted x (sortStrings xs)

/-- The label-composition step performed per edge at the end of `extract`:
`inheritance` edges get the literal label, relationship edges get the
sorted comma-joined field names with the multiplicity appended when that
value is truthy (present and non-empty). -/
def compute_label (edge : Edge) : Edge :=
  if edge.properties.type == "inheritance" then
    { edge with label := some "inheritance" }
  else
    let label := String.intercalate ", " (sortStrings ((edge.properties.fields.getD []).map Prod.fst))
    let label' :=
      match edge.properties.multiplicity with
      | some m => if m.isEmpty then label else label ++ " (" ++ m ++ ")"
      | none => label
    { edge with label := some label' }

/-- All class descriptors an index can denote: the listed classes plus the
placeholder. -/
def model_universe (g : ModelGraph) : List ModelType :=
  defaultModelType :: g.types

def vertex_child_count (t : ModelType) : Nat :=
  (rel_targets t).length + t.subclasses.length

/-- Fuel sufficient for the vertex pass: one initial pop plus room for
every child push any class can ever perform. -/
def vertex_fuel (g : ModelGraph) : Nat :=
  ((model_universe g).map vertex_child_count).sum + 1

/-- Fuel sufficient for the edge pass (subclass pushes only). -/
def edge_fuel (g : ModelGraph) : Nat :=
  ((model_universe g).map (fun t => t.subclasses.length)).sum + 1

/-- Model of `extract`: vertex pass, edge pass, then label composition,
returning the two accumulators' values in insertion order. -/
def extract (g : ModelGraph) (root : Nat) (fq_vertex_labels : Bool) :
    Except ExtractError Graph :=
  match r_extract_vertices g fq_vertex_labels (vertex_fuel g) [root] [] with
  | none => .error .fuelExhausted
  | some vertex_map =>
    match r_extract_edges g (edge_fuel g) [root] [] [] with
    | .error e => .error e
    | .ok edge_map =>
      let edge_map' := edge_map.map (fun p => (p.1, compute_label p.2))
      .ok { vertices := vertex_map.map Prod.snd, edges := edge_map'.map Prod.snd }

/-- Two classes `m.A` and `m.B`, each declaring one relationship targeting
the other (the spec's relationship 2-cycle scenario rooted at `A`). -/
def twoCycleGraph : ModelGraph :=
  { types :=
      [{ module := "m", name := "A",
         relationships := some
           [("b", { target := 1, direction := "MANYTOONE", backref := some "a_list",
                    local_columns := ["b_id"], remote_side := ["id"],
                    is_self_referential := false })],
         subclasses := [], bases := ["A", "object"] },
       { module := "m", name := "B",
         relationships := some
           [("a_list", { target := 0, direction := "ONETOMANY", backref := some "b",
                         local_columns := ["id"], remote_side := ["b_id"],
                         is_self_referential := false })],
         subclasses := [], bases := ["B", "object"] }] }

/-- A base class `m.Animal` with immediate subclasses `m.Dog`, `m.Cat`
(the spec's inheritance scenario). -/
def animalGraph : ModelGraph :=
  { types :=
      [{ module := "m", name := "Animal", relationships := some [],
         subclasses := [1, 2], bases := ["Animal", "object"] },
       { module := "m", name := "Dog", relationships := some [],
         subclasses := [], bases := ["Dog", "Animal", "object"] },
       { module := "m", name := "Cat", relationships := some [],
         subclasses := [], bases := ["Cat", "Animal", "object"] }] }

/-- A diamond hierarchy: `D` extends `B` and `C`, both of which extend `A`
(the spec's revisit-guard scenario). -/
def diamondGraph : ModelGraph :=
  { types :=
      [{ module := "m", name := "A", relationships := some [],
         subclasses := [1, 2], bases := ["A", "object"] },
       { module := "m", name := "B", relationships := some [],
         subclasses := [3], bases := ["B", "A", "object"] },
       { module := "m", name := "C", relationships := some [],
         subclasses := [3], bases := ["C", "A", "object"] },
       { module := "m", name := "D", relationships := some [],
         subclasses := [], bases := ["D", "B", "C", "A", "object"] }] }

/-- Root `m.A` with a relationship to `m.B`, where `B` declares a
relationship whose direction `FOO` is outside the multiplicity table;
`B` is reachable only through the relationship, not through subclassing. -/
def badDirectionGraph : ModelGraph :=
  { types :=
      [{ module := "m", name := "A",
         relationships := some
           [("b", { target := 1, direction := "MANYTOONE", backref := none,
                    local_columns := ["b_id"], remote_side := ["id"],
                    is_self_referential := false })],
         subclasses := [], bases := ["A", "object"] },
       { module := "m", name := "B",
         relationships := some
           [("a", { target := 0, direction := "FOO", backref := none,
                    local_columns := ["id"], remote_side := ["b_id"],
                    is_self_referential := false })],
         subclasses := [], bases := ["B", "object"] }] }

/-- A single root class whose only relationship carries the out-of-table
direction `FOO`. -/
def rootBadDirectionGraph : ModelGraph :=
  { types :=
      [{ module := "m", name := "A",
         relationships := some
           [("x", { target := 0, direction := "FOO", backref := none,
                    local_columns := ["a_id"], remote_side := ["id"],
                    is_self_referential := true })],
         subclasses := [], bases := ["A", "object"] }] }

/-- Family of graphs for the edge-merging scenario: `m.Article` declares two
relationships (named `n1` and `n2`, direction `d`) both targeting
`m.Person`. -/
def articleGraph (n1 n2 d : String) : ModelGraph :=
  { types :=
      [{ module := "m", name := "Article",
         relationships := some
           [(n1, { target := 1, direction := d, backref := none,
                   local_columns := ["p1_id"], remote_side := ["id"],
                   is_self_referential := false }),
            (n2, { target := 1, direction := d, backref := none,
                   local_columns := ["p2_id"], remote_side := ["id"],
                   is_self_referential := false })],
         subclasses := [], bases := ["Article", "object"] },
       { module := "m", name := "Person", relationships := some [],
         subclasses := [], bases := ["Person", "object"] }] }

/-- A single class `m.Node` with one relationship targeting itself. -/
def selfRefGraph : ModelGraph :=
  { types :=
      [{ module := "m", name := "Node",
         relationships := some
           [("parent", { target := 0, direction := "MANYTOONE", backref := some "children",
                         local_columns := ["parent_id"], remote_side := ["id"],
                         is_self_referential := true })],
         subclasses := [], bases := ["Node", "object"] }] }

/-! ### Verification-side definitions (measures, invariant predicates) -/

/-- Work-list measure for the vertex pass: pending pops plus the child
pushes every not-yet-stored class can still perform. -/
def vertex_potential (g : ModelGraph) (stack : List Nat) (vm : VertexMap) : Nat :=
  stack.length +
    (((model_universe g).filter
        (fun t => (vm.lookup (make_hash_id (get_vertex_key t))).isNone)).map
      vertex_child_count).sum

/-- Work-list measure for the edge pass: pending pops plus the subclass
pushes every not-yet-visited class can still perform. -/
def edge_potential (g : ModelGraph) (stack : List Nat) (visited : List String) : Nat :=
  stack.length +
    (((model_universe g).filter
        (fun t => !(visited.contains (get_vertex_key t)))).map
      (fun t => t.subclasses.length)).sum

/-- Shape invariant of every entry the vertex pass stores: the vertex's
`id` field is its accumulator key and is the hash of the qualified name
recorded in its own properties. -/
def VertexEntryOk (p : String × Vertex) : Prop :=
  p.2.id = p.1 ∧
  p.2.id = make_hash_id (p.2.properties.module_name ++ "." ++ p.2.properties.model_name)

/-- Shape invariant of every entry the edge pass stores: the edge's `id`
field is its accumulator key and is the hash of the composed key built
from its own type, source id and dest id (source and dest being hashes of
the respective qualified names, and the hash being the identity). -/
def EdgeEntryOk (p : String × Edge) : Prop :=
  p.2.id = p.1 ∧
  p.2.id = make_hash_id (compose_edge_qname p.2.properties.type p.2.source p.2.dest)

/-- The class at index `i` already has its vertex stored: its hashed
qualified name is a key of the vertex accumulator. -/
def covered (g : ModelGraph) (vm : VertexMap) (i : Nat) : Prop :=
  (vm.lookup (make_hash_id (get_vertex_key (typeAt g i)))).isSome = true

/-- Both endpoints of an edge are keys of the vertex accumulator. -/
def EdgeEndpointsOk (vm : VertexMap) (e : Edge) : Prop :=
  (vm.lookup e.source).isSome = true ∧ (vm.lookup e.dest).isSome = true

/-- The qualified names of all classes are pairwise distinct (the
reflection-provider contract: qualified names are unique per type). -/
def QNamesNodup (g : ModelGraph) : Prop :=
  ((model_universe g).map get_vertex_key).Nodup

/-- Two class descriptors that agree on everything the extractor reads
(module, name, yielded relationships, subclasses, base names). -/
def TypeEquiv (t t' : ModelType) : Prop :=
  t.module = t'.module ∧ t.name = t'.name ∧
  iter_relationship_properties t = iter_relationship_properties t' ∧
  t.subclasses = t'.subclasses ∧ t.bases = t'.bases

/-- Replace the `relationships` metadata of the class at index `i`. -/
def setRels (g : ModelGraph) (i : Nat)
    (r : Option (List (String × Relation))) : ModelGraph :=
  { types := g.types.set i { g.types.getD i defaultModelType with relationships := r } }

/-- An empty graph value, used to project `extract` results in closed
statements. -/
def defaultGraph : Graph := { vertices := [], edges := [] }

/-- The animal graph with the root's relationship metadata made unavailable
(`sa_inspect` raising), for the lenient-fallback scenario. -/
def animalGraphNoInspect : ModelGraph := setRels animalGraph 0 none

/-! ### Association-list helper lemmas -/

theorem lookup_append (k : String) (l l' : List (String × α)) :
    List.lookup k (l ++ l') = (List.lookup k l).or (List.lookup k l') := by
  induction l with
  | nil => rfl
  | cons p rest ih =>
    cases p with
    | mk k' v =>
      by_cases h : k == k'
      · simp [List.lookup, h]
      · simp only [List.cons_append, List.lookup, h]
        exact ih

theorem mem_of_lookup_eq_some {l : List (String × α)} {k : String} {v : α}
    (h : List.lookup k l = some v) : (k, v) ∈ l := by
  induction l with
  | nil => simp [List.lookup] at h
  | cons p rest ih =>
    cases p with
    | mk k' v' =>
      by_cases hk : k == k'
      · simp only [List.lookup, hk] at h
        obtain rfl : v' = v := by injection h
        obtain rfl : k = k' := by exact eq_of_beq hk
        exact List.mem_cons_self _ _
      · simp only [List.lookup, hk] at h
        exact List.mem_cons_of_mem _ (ih h)

theorem lookup_eq_none_of_not_mem_keys {l : List (String × α)} {k : String}
    (h : k ∉ l.map Prod.fst) : List.lookup k l = none := by
  induction l with
  | nil => rfl
  | cons p rest ih =>
    simp only [List.map_cons, List.mem_cons, not_or] at h
    have hk : (k == p.1) = false := by
      exact beq_eq_false_iff_ne.mpr h.1
    cases p with
    | mk k' v' =>
      simp only [List.lookup, hk]
      exact ih h.2

theorem not_mem_keys_of_lookup_eq_none {l : List (String × α)} {k : String}
    (h : List.lookup k l = none) : k ∉ l.map Prod.fst := by
  induction l with
  | nil => simp
  | cons p rest ih =>
    cases p with
    | mk k' v' =>
      by_cases hk : k == k'
      · simp [List.lookup, hk] at h
      · simp only [List.lookup, hk] at h
        have hne : k ≠ k' := by
          intro he
          subst he
          simp at hk
        simp only [List.map_cons, List.mem_cons, not_or]
        exact ⟨hne, ih h⟩

/-! ### Filter-sum measure lemmas -/

theorem sum_filter_mono {α : Type} (f : α → Nat) (p p' : α → Bool) (l : List α)
    (himp : ∀ a, p' a = true → p a = true) :
    ((l.filter p').map f).sum ≤ ((l.filter p).map f).sum := by
  induction l with
  | nil => simp
  | cons a rest ih =>
    by_cases h' : p' a = true
    · have hp : p a = true := himp a h'
      simp [List.filter_cons, h', hp]
      omega
    · have h'false : p' a = false := by simpa using h'
      by_cases hp : p a = true
      · simp [List.filter_cons, h'false, hp]
        omega
      · have hpfalse : p a = false := by simpa using hp
        simp only [List.filter_cons, h'false, hpfalse, Bool.false_eq_true, if_false]
        exact ih

theorem sum_filter_drop {α : Type} (f : α → Nat) (p p' : α → Bool) (l : List α) (t : α)
    (ht : t ∈ l) (hpt : p t = true) (hp't : p' t = false)
    (himp : ∀ a, p' a = true → p a = true) :
    ((l.filter p').map f).sum + f t ≤ ((l.filter p).map f).sum := by
  induction l with
  | nil => simp at ht
  | cons a rest ih =>
    rcases List.mem_cons.mp ht with rfl | hmem
    · simp [List.filter_cons, hp't, hpt]
      have := sum_filter_mono f p p' rest himp
      omega
    · by_cases h' : p' a = true
      · have hp : p a = true := himp a h'
        simp [List.filter_cons, h', hp]
        have := ih hmem
        omega
      · have h'false : p' a = false := by simpa using h'
        by_cases hp : p a = true
        · simp [List.filter_cons, h'false, hp]
          have := ih hmem
          omega
        · have hpfalse : p a = false := by simpa using hp
          simp only [List.filter_cons, h'false, hpfalse, Bool.false_eq_true, if_false]
          exact ih hmem

theorem typeAt_mem_universe (g : ModelGraph) (i : Nat) :
    typeAt g i ∈ model_universe g := by
  unfold typeAt model_universe
  by_cases h : i < g.types.length
  · exact List.mem_cons_of_mem _ (by
      rw [List.getD_eq_getElem g.types defaultModelType h]
      exact List.getElem_mem h)
  · rw [List.getD_eq_default g.types defaultModelType (Nat.le_of_not_lt h)]
    exact List.mem_cons_self _ _

/-! ### Termination of the two passes: the supplied fuel is never exhausted -/

theorem vertex_potential_step (g : ModelGraph) (i : Nat) (pending : List Nat)
    (vm : VertexMap) (v : Vertex)
    (hnone : List.lookup (make_hash_id (get_vertex_key (typeAt g i))) vm = none) :
    vertex_potential g (child_indices (typeAt g i) ++ pending)
        (vm ++ [(make_hash_id (get_vertex_key (typeAt g i)), v)]) + 1 ≤
      vertex_potential g (i :: pending) vm := by
  have hdrop :
      ((((model_universe g).filter
          (fun t =>
            (List.lookup (make_hash_id (get_vertex_key t))
                (vm ++ [(make_hash_id (get_vertex_key (typeAt g i)), v)])).isNone)).map
        vertex_child_count).sum) + vertex_child_count (typeAt g i) ≤
      (((model_universe g).filter
          (fun t => (List.lookup (make_hash_id (get_vertex_key t)) vm).isNone)).map
        vertex_child_count).sum := by
    apply sum_filter_drop
    · exact typeAt_mem_universe g i
    · simp [hnone]
    · simp [lookup_append, hnone, List.lookup]
    · intro t hp'
      rw [Option.isNone_iff_eq_none] at hp' ⊢
      rw [lookup_append] at hp'
      cases hx : List.lookup (make_hash_id (get_vertex_key t)) vm with
      | none => rfl
      | some v' =>
        rw [hx] at hp'
        simp [Option.or] at hp'
  simp only [vertex_potential, List.length_cons, List.length_append,
    child_indices, rel_targets, List.length_map]
  simp only [vertex_child_count, rel_targets, List.length_map] at hdrop
  omega

theorem r_extract_vertices_total (g : ModelGraph) (fq : Bool) :
    ∀ fuel stack vm, vertex_potential g stack vm ≤ fuel →
      (r_extract_vertices g fq fuel stack vm).isSome = true := by
  intro fuel
  induction fuel with
  | zero =>
    intro stack vm h
    cases stack with
    | nil => simp [r_extract_vertices]
    | cons i pending =>
      exfalso
      simp [vertex_potential] at h
  | succ fuel ih =>
    intro stack vm h
    cases stack with
    | nil => simp [r_extract_vertices]
    | cons i pending =>
      simp only [r_extract_vertices]
      by_cases hv :
          (List.lookup (make_hash_id (get_vertex_key (typeAt g i))) vm).isSome = true
      · rw [if_pos hv]
        apply ih
        simp only [vertex_potential, List.length_cons] at h ⊢
        omega
      · rw [if_neg hv]
        apply ih
        have hnone :
            List.lookup (make_hash_id (get_vertex_key (typeAt g i))) vm = none := by
          cases hc : List.lookup (make_hash_id (get_vertex_key (typeAt g i))) vm with
          | none => rfl
          | some v => exact absurd (by simp [hc]) hv
        exact Nat.le_of_succ_le_succ
          (le_trans (vertex_potential_step g i pending vm _ hnone) h)

theorem vertex_pass_isSome (g : ModelGraph) (fq : Bool) (root : Nat) :
    (r_extract_vertices g fq (vertex_fuel g) [root] []).isSome = true := by
  apply r_extract_vertices_total
  have hfilter :
      (model_universe g).filter
          (fun t => (List.lookup (make_hash_id (get_vertex_key t)) ([] : VertexMap)).isNone) =
        model_universe g :=
    List.filter_eq_self.mpr (fun a _ => rfl)
  simp only [vertex_potential, vertex_fuel, hfilter, List.length_cons, List.length_nil]
  omega

theorem process_relations_no_fuel_error (g : ModelGraph) (sq sid : String) :
    ∀ rs em, process_relations g sq sid rs em ≠ .error .fuelExhausted := by
  intro rs
  induction rs with
  | nil =>
    intro em h
    simp [process_relations] at h
  | cons r rest ih =>
    intro em h
    cases r with
    | mk relation_name relation =>
      simp only [process_relations] at h
      split at h
      · split at h
        · simp at h
        · exact ih _ h
      · split at h
        · simp at h
        · exact ih _ h

theorem edge_potential_step (g : ModelGraph) (i : Nat) (pending : List Nat)
    (visited : List String)
    (hnot : visited.contains (get_vertex_key (typeAt g i)) = false) :
    edge_potential g ((typeAt g i).subclasses ++ pending)
        (get_vertex_key (typeAt g i) :: visited) + 1 ≤
      edge_potential g (i :: pending) visited := by
  have hdrop :
      ((((model_universe g).filter
          (fun t => !((get_vertex_key (typeAt g i) :: visited).contains (get_vertex_key t)))).map
        (fun t => t.subclasses.length)).sum) + (typeAt g i).subclasses.length ≤
      (((model_universe g).filter
          (fun t => !(visited.contains (get_vertex_key t)))).map
        (fun t => t.subclasses.length)).sum := by
    apply sum_filter_drop
    · exact typeAt_mem_universe g i
    · simpa using hnot
    · simp [List.contains_cons]
    · intro t hp'
      simp only [List.contains_cons, Bool.not_eq_true', Bool.or_eq_false_iff] at hp'
      simpa using hp'.2
  simp only [edge_potential, List.length_cons, List.length_append]
  omega

theorem r_extract_edges_total (g : ModelGraph) :
    ∀ fuel stack visited em, edge_potential g stack visited ≤ fuel →
      r_extract_edges g fuel stack visited em ≠ .error .fuelExhausted := by
  intro fuel
  induction fuel with
  | zero =>
    intro stack visited em h
    cases stack with
    | nil => simp [r_extract_edges]
    | cons i pending =>
      exfalso
      simp [edge_potential] at h
  | succ fuel ih =>
    intro stack visited em h
    cases stack with
    | nil => simp [r_extract_edges]
    | cons i pending =>
      simp only [r_extract_edges]
      by_cases hv : visited.contains (get_vertex_key (typeAt g i)) = true
      · rw [if_pos hv]
        apply ih
        simp only [edge_potential, List.length_cons] at h ⊢
        omega
      · rw [if_neg hv]
        have hnot : visited.contains (get_vertex_key (typeAt g i)) = false := by
          simpa using hv
        cases hp : process_relations g (get_vertex_key (typeAt g i))
            (make_hash_id (get_vertex_key (typeAt g i)))
            (iter_relationship_properties (typeAt g i)) em with
        | error e =>
          intro hcontra
          have he : e = ExtractError.fuelExhausted := by
            injection hcontra
          exact process_relations_no_fuel_error g _ _ _ _ (he ▸ hp)
        | ok em' =>
          apply ih
          exact Nat.le_of_succ_le_succ
            (le_trans (edge_potential_step g i pending visited hnot) h)

theorem edge_pass_no_fuel_error (g : ModelGraph) (root : Nat) :
    r_extract_edges g (edge_fuel g) [root] [] [] ≠ .error .fuelExhausted := by
  apply r_extract_edges_total
  have hfilter :
      (model_universe g).filter
          (fun t => !(([] : List String).contains (get_vertex_key t))) =
        model_universe g :=
    List.filter_eq_self.mpr (fun a _ => rfl)
  simp only [edge_potential, edge_fuel, hfilter, List.length_cons, List.length_nil]
  omega

/-! ### Invariants of the vertex pass -/

theorem make_hash_id_injective {a b : String} (h : make_hash_id a = make_hash_id b) :
    a = b := h

theorem eq_of_qname_eq {g : ModelGraph} (hnodup : QNamesNodup g) {t t' : ModelType}
    (ht : t ∈ model_universe g) (ht' : t' ∈ model_universe g)
    (he : get_vertex_key t = get_vertex_key t') : t = t' :=
  List.inj_on_of_nodup_map hnodup ht ht' he

theorem r_extract_vertices_entries (g : ModelGraph) (fq : Bool) :
    ∀ fuel stack vm vmF, r_extract_vertices g fq fuel stack vm = some vmF →
      (∀ p ∈ vm, VertexEntryOk p) → ∀ p ∈ vmF, VertexEntryOk p := by
  intro fuel
  induction fuel with
  | zero =>
    intro stack vm vmF h hinv
    cases stack with
    | nil =>
      obtain rfl : vm = vmF := by simpa [r_extract_vertices] using h
      exact hinv
    | cons i pending => simp [r_extract_vertices] at h
  | succ fuel ih =>
    intro stack vm vmF h hinv
    cases stack with
    | nil =>
      obtain rfl : vm = vmF := by simpa [r_extract_vertices] using h
      exact hinv
    | cons i pending =>
      simp only [r_extract_vertices] at h
      by_cases hv :
          (List.lookup (make_hash_id (get_vertex_key (typeAt g i))) vm).isSome = true
      · rw [if_pos hv] at h
        exact ih _ _ _ h hinv
      · rw [if_neg hv] at h
        refine ih _ _ _ h ?_
        intro p hp
        rcases List.mem_append.mp hp with hmem | hnew
        · exact hinv p hmem
        · simp only [List.mem_singleton] at hnew
          subst hnew
          exact ⟨rfl, rfl⟩

theorem r_extract_vertices_keys_nodup (g : ModelGraph) (fq : Bool) :
    ∀ fuel stack vm vmF, r_extract_vertices g fq fuel stack vm = some vmF →
      (vm.map Prod.fst).Nodup → (vmF.map Prod.fst).Nodup := by
  intro fuel
  induction fuel with
  | zero =>
    intro stack vm vmF h hnd
    cases stack with
    | nil =>
      obtain rfl : vm = vmF := by simpa [r_extract_vertices] using h
      exact hnd
    | cons i pending => simp [r_extract_vertices] at h
  | succ fuel ih =>
    intro stack vm vmF h hnd
    cases stack with
    | nil =>
      obtain rfl : vm = vmF := by simpa [r_extract_vertices] using h
      exact hnd
    | cons i pending =>
      simp only [r_extract_vertices] at h
      by_cases hv :
          (List.lookup (make_hash_id (get_vertex_key (typeAt g i))) vm).isSome = true
      · rw [if_pos hv] at h
        exact ih _ _ _ h hnd
      · rw [if_neg hv] at h
        refine ih _ _ _ h ?_
        have hnone :
            List.lookup (make_hash_id (get_vertex_key (typeAt g i))) vm = none := by
          cases hc : List.lookup (make_hash_id (get_vertex_key (typeAt g i))) vm with
          | none => rfl
          | some v => exact absurd (by simp [hc]) hv
        have hnotmem := not_mem_keys_of_lookup_eq_none hnone
        simp only [List.map_append, List.map_cons, List.map_nil]
        rw [List.nodup_append]
        exact ⟨hnd, List.nodup_singleton _, by
          intro a ha hb
          simp only [List.mem_singleton] at hb
          subst hb
          exact hnotmem ha⟩

theorem r_extract_vertices_lookup_mono (g : ModelGraph) (fq : Bool) :
    ∀ fuel stack vm vmF, r_extract_vertices g fq fuel stack vm = some vmF →
      ∀ k, (List.lookup k vm).isSome = true → (List.lookup k vmF).isSome = true := by
  intro fuel
  induction fuel with
  | zero =>
    intro stack vm vmF h k hk
    cases stack with
    | nil =>
      obtain rfl : vm = vmF := by simpa [r_extract_vertices] using h
      exact hk
    | cons i pending => simp [r_extract_vertices] at h
  | succ fuel ih =>
    intro stack vm vmF h k hk
    cases stack with
    | nil =>
      obtain rfl : vm = vmF := by simpa [r_extract_vertices] using h
      exact hk
    | cons i pending =>
      simp only [r_extract_vertices] at h
      by_cases hv :
          (List.lookup (make_hash_id (get_vertex_key (typeAt g i))) vm).isSome = true
      · rw [if_pos hv] at h
        exact ih _ _ _ h k hk
      · rw [if_neg hv] at h
        refine ih _ _ _ h k ?_
        rw [lookup_append]
        cases hx : List.lookup k vm with
        | none => rw [hx] at hk; simp at hk
        | some v => simp [Option.or]

theorem covered_append (g : ModelGraph) (vm : VertexMap) (e : String × Vertex) (j : Nat)
    (hj : covered g vm j) : covered g (vm ++ [e]) j := by
  unfold covered at hj ⊢
  rw [lookup_append]
  cases hx : List.lookup (make_hash_id (get_vertex_key (typeAt g j))) vm with
  | none => rw [hx] at hj; simp at hj
  | some v => simp [Option.or]

theorem covered_append_self (g : ModelGraph) (vm : VertexMap) (v : Vertex) (i : Nat) :
    covered g (vm ++ [(make_hash_id (get_vertex_key (typeAt g i)), v)]) i := by
  unfold covered
  rw [lookup_append]
  cases hx : List.lookup (make_hash_id (get_vertex_key (typeAt g i))) vm with
  | none => simp [Option.or, List.lookup]
  | some w => simp [Option.or]

theorem covered_append_cases (g : ModelGraph) (vm : VertexMap) (v : Vertex) (i j : Nat)
    (hcov : covered g (vm ++ [(make_hash_id (get_vertex_key (typeAt g i)), v)]) j) :
    covered g vm j ∨ get_vertex_key (typeAt g j) = get_vertex_key (typeAt g i) := by
  unfold covered at hcov
  rw [lookup_append] at hcov
  cases hx : List.lookup (make_hash_id (get_vertex_key (typeAt g j))) vm with
  | some w =>
    refine Or.inl ?_
    unfold covered
    simp [hx]
  | none =>
    rw [hx] at hcov
    simp only [Option.or] at hcov
    by_cases hbeq :
        (make_hash_id (get_vertex_key (typeAt g j)) ==
          make_hash_id (get_vertex_key (typeAt g i))) = true
    · exact Or.inr (make_hash_id_injective (eq_of_beq hbeq))
    · exfalso
      rw [Bool.not_eq_true] at hbeq
      simp only [List.lookup, hbeq] at hcov
      simp at hcov

theorem r_extract_vertices_closure (g : ModelGraph) (fq : Bool)
    (hnodup : QNamesNodup g) :
    ∀ fuel stack vm vmF, r_extract_vertices g fq fuel stack vm = some vmF →
      (∀ i c, covered g vm i → c ∈ child_indices (typeAt g i) →
        covered g vm c ∨ c ∈ stack) →
      ∀ i c, covered g vmF i → c ∈ child_indices (typeAt g i) → covered g vmF c := by
  intro fuel
  induction fuel with
  | zero =>
    intro stack vm vmF h hinv
    cases stack with
    | nil =>
      obtain rfl : vm = vmF := by simpa [r_extract_vertices] using h
      intro i c hcov hc
      rcases hinv i c hcov hc with h' | h'
      · exact h'
      · simp at h'
    | cons i pending => simp [r_extract_vertices] at h
  | succ fuel ih =>
    intro stack vm vmF h hinv
    cases stack with
    | nil =>
      obtain rfl : vm = vmF := by simpa [r_extract_vertices] using h
      intro i c hcov hc
      rcases hinv i c hcov hc with h' | h'
      · exact h'
      · simp at h'
    | cons i pending =>
      simp only [r_extract_vertices] at h
      by_cases hv :
          (List.lookup (make_hash_id (get_vertex_key (typeAt g i))) vm).isSome = true
      · rw [if_pos hv] at h
        refine ih _ _ _ h ?_
        intro i' c hcov hc
        rcases hinv i' c hcov hc with h' | h'
        · exact Or.inl h'
        · rcases List.mem_cons.mp h' with rfl | hmem
          · exact Or.inl hv
          · exact Or.inr hmem
      · rw [if_neg hv] at h
        refine ih _ _ _ h ?_
        intro i' c hcov' hc
        by_cases hcase : covered g vm i'
        · rcases hinv i' c hcase hc with h' | h'
          · exact Or.inl (covered_append g vm _ c h')
          · rcases List.mem_cons.mp h' with rfl | hmem
            · exact Or.inl (covered_append_self g vm _ c)
            · exact Or.inr (List.mem_append.mpr (Or.inr hmem))
        · rcases covered_append_cases g vm _ i i' hcov' with hG | hqeq
          · exact absurd hG hcase
          · have hteq : typeAt g i' = typeAt g i :=
              eq_of_qname_eq hnodup (typeAt_mem_universe g i') (typeAt_mem_universe g i) hqeq
            rw [hteq] at hc
            exact Or.inr (List.mem_append.mpr (Or.inl hc))

/-! ### Invariants of the edge pass -/

theorem process_relations_entries (g : ModelGraph) (sq : String) :
    ∀ rs em emF,
      process_relations g sq (make_hash_id sq) rs em = .ok emF →
      (∀ p ∈ em, EdgeEntryOk p) → ∀ p ∈ emF, EdgeEntryOk p := by
  intro rs
  induction rs with
  | nil =>
    intro em emF h hinv
    obtain rfl : em = emF := by simpa [process_relations] using h
    exact hinv
  | cons r rest ih =>
    intro em emF h hinv
    cases r with
    | mk relation_name relation =>
      simp only [process_relations] at h
      split at h
      · split at h
        · simp at h
        · refine ih _ _ h ?_
          intro p hp
          rcases List.mem_append.mp hp with hmem | hnew
          · exact hinv p hmem
          · simp only [List.mem_singleton] at hnew
            subst hnew
            exact ⟨rfl, rfl⟩
      · rename_i existing_edge hlook
        split at h
        · simp at h
        · rename_i fs hfs
          refine ih _ _ h ?_
          intro p hp
          rcases List.mem_map.mp hp with ⟨q, hq, rfl⟩
          by_cases hk :
              (q.1 == make_hash_id
                (compose_edge_qname relation.direction sq
                  (get_vertex_key (typeAt g relation.target)))) = true
          · simp only [hk, if_true]
            have hmem := mem_of_lookup_eq_some hlook
            have hok := hinv _ hmem
            exact ⟨hok.1, hok.2⟩
          · rw [Bool.not_eq_true] at hk
            simp only [hk, Bool.false_eq_true, if_false]
            exact hinv q hq

theorem process_inheritance_entries (g : ModelGraph) (sq : String) :
    ∀ subs em,
      (∀ p ∈ em, EdgeEntryOk p) →
      ∀ p ∈ process_inheritance g sq (make_hash_id sq) subs em, EdgeEntryOk p := by
  intro subs
  induction subs with
  | nil =>
    intro em hinv p hp
    exact hinv p hp
  | cons j rest ih =>
    intro em hinv p hp
    simp only [process_inheritance] at hp
    refine ih _ ?_ p hp
    split
    · exact hinv
    · intro q hq
      rcases List.mem_append.mp hq with hmem | hnew
      · exact hinv q hmem
      · simp only [List.mem_singleton] at hnew
        subst hnew
        exact ⟨rfl, rfl⟩

theorem r_extract_edges_entries (g : ModelGraph) :
    ∀ fuel stack visited em emF,
      r_extract_edges g fuel stack visited em = .ok emF →
      (∀ p ∈ em, EdgeEntryOk p) → ∀ p ∈ emF, EdgeEntryOk p := by
  intro fuel
  induction fuel with
  | zero =>
    intro stack visited em emF h hinv
    cases stack with
    | nil =>
      obtain rfl : em = emF := by simpa [r_extract_edges] using h
      exact hinv
    | cons i pending => simp [r_extract_edges] at h
  | succ fuel ih =>
    intro stack visited em emF h hinv
    cases stack with
    | nil =>
      obtain rfl : em = emF := by simpa [r_extract_edges] using h
      exact hinv
    | cons i pending =>
      simp only [r_extract_edges] at h
      by_cases hv : visited.contains (get_vertex_key (typeAt g i)) = true
      · rw [if_pos hv] at h
        exact ih _ _ _ _ h hinv
      · rw [if_neg hv] at h
        cases hp : process_relations g (get_vertex_key (typeAt g i))
            (make_hash_id (get_vertex_key (typeAt g i)))
            (iter_relationship_properties (typeAt g i)) em with
        | error e => rw [hp] at h; simp at h
        | ok em' =>
          rw [hp] at h
          simp only at h
          refine ih _ _ _ _ h ?_
          exact process_inheritance_entries g _ _ _
            (process_relations_entries g _ _ _ _ hp hinv)

theorem process_relations_endpoints (g : ModelGraph) (sq : String) (vmF : VertexMap)
    (hsrc : (vmF.lookup (make_hash_id sq)).isSome = true) :
    ∀ rs em emF,
      process_relations g sq (make_hash_id sq) rs em = .ok emF →
      (∀ p ∈ rs,
        (vmF.lookup (make_hash_id (get_vertex_key (typeAt g p.2.target)))).isSome = true) →
      (∀ p ∈ em, EdgeEndpointsOk vmF p.2) → ∀ p ∈ emF, EdgeEndpointsOk vmF p.2 := by
  intro rs
  induction rs with
  | nil =>
    intro em emF h hrs hinv
    obtain rfl : em = emF := by simpa [process_relations] using h
    exact hinv
  | cons r rest ih =>
    intro em emF h hrs hinv
    cases r with
    | mk relation_name relation =>
      simp only [process_relations] at h
      split at h
      · split at h
        · simp at h
        · refine ih _ _ h (fun p hp => hrs p (List.mem_cons_of_mem _ hp)) ?_
          intro p hp
          rcases List.mem_append.mp hp with hmem | hnew
          · exact hinv p hmem
          · simp only [List.mem_singleton] at hnew
            subst hnew
            exact ⟨hsrc, hrs (relation_name, relation) (List.mem_cons_self _ _)⟩
      · rename_i existing_edge hlook
        split at h
        · simp at h
        · rename_i fs hfs
          refine ih _ _ h (fun p hp => hrs p (List.mem_cons_of_mem _ hp)) ?_
          intro p hp
          rcases List.mem_map.mp hp with ⟨q, hq, rfl⟩
          by_cases hk :
              (q.1 == make_hash_id
                (compose_edge_qname relation.direction sq
                  (get_vertex_key (typeAt g relation.target)))) = true
          · simp only [hk, if_true]
            have hok := hinv _ (mem_of_lookup_eq_some hlook)
            exact ⟨hok.1, hok.2⟩
          · rw [Bool.not_eq_true] at hk
            simp only [hk, Bool.false_eq_true, if_false]
            exact hinv q hq

theorem process_inheritance_endpoints (g : ModelGraph) (sq : String) (vmF : VertexMap)
    (hsrc : (vmF.lookup (make_hash_id sq)).isSome = true) :
    ∀ subs em,
      (∀ j ∈ subs,
        (vmF.lookup (make_hash_id (get_vertex_key (typeAt g j)))).isSome = true) →
      (∀ p ∈ em, EdgeEndpointsOk vmF p.2) →
      ∀ p ∈ process_inheritance g sq (make_hash_id sq) subs em, EdgeEndpointsOk vmF p.2 := by
  intro subs
  induction subs with
  | nil =>
    intro em hsubs hinv p hp
    exact hinv p hp
  | cons j rest ih =>
    intro em hsubs hinv p hp
    simp only [process_inheritance] at hp
    refine ih _ (fun j' hj' => hsubs j' (List.mem_cons_of_mem _ hj')) ?_ p hp
    split
    · exact hinv
    · intro q hq
      rcases List.mem_append.mp hq with hmem | hnew
      · exact hinv q hmem
      · simp only [List.mem_singleton] at hnew
        subst hnew
        exact ⟨hsrc, hsubs j (List.mem_cons_self _ _)⟩

theorem r_extract_edges_endpoints (g : ModelGraph) (vmF : VertexMap)
    (hclosure : ∀ i c, covered g vmF i → c ∈ child_indices (typeAt g i) →
      covered g vmF c) :
    ∀ fuel stack visited em emF,
      r_extract_edges g fuel stack visited em = .ok emF →
      (∀ i ∈ stack, covered g vmF i) →
      (∀ p ∈ em, EdgeEndpointsOk vmF p.2) →
      ∀ p ∈ emF, EdgeEndpointsOk vmF p.2 := by
  intro fuel
  induction fuel with
  | zero =>
    intro stack visited em emF h hstack hinv
    cases stack with
    | nil =>
      obtain rfl : em = emF := by simpa [r_extract_edges] using h
      exact hinv
    | cons i pending => simp [r_extract_edges] at h
  | succ fuel ih =>
    intro stack visited em emF h hstack hinv
    cases stack with
    | nil =>
      obtain rfl : em = emF := by simpa [r_extract_edges] using h
      exact hinv
    | cons i pending =>
      simp only [r_extract_edges] at h
      have hcov_i : covered g vmF i := hstack i (List.mem_cons_self _ _)
      by_cases hv : visited.contains (get_vertex_key (typeAt g i)) = true
      · rw [if_pos hv] at h
        exact ih _ _ _ _ h (fun j hj => hstack j (List.mem_cons_of_mem _ hj)) hinv
      · rw [if_neg hv] at h
        cases hp : process_relations g (get_vertex_key (typeAt g i))
            (make_hash_id (get_vertex_key (typeAt g i)))
            (iter_relationship_properties (typeAt g i)) em with
        | error e => rw [hp] at h; simp at h
        | ok em' =>
          rw [hp] at h
          simp only at h
          have hrel_cov : ∀ p ∈ iter_relationship_properties (typeAt g i),
              (vmF.lookup (make_hash_id (get_vertex_key (typeAt g p.2.target)))).isSome =
                true := by
            intro p hp'
            refine hclosure i p.2.target hcov_i ?_
            exact List.mem_append.mpr (Or.inl (List.mem_map.mpr ⟨p, hp', rfl⟩))
          have hsub_cov : ∀ j ∈ (typeAt g i).subclasses,
              (vmF.lookup (make_hash_id (get_vertex_key (typeAt g j)))).isSome = true := by
            intro j hj
            exact hclosure i j hcov_i (List.mem_append.mpr (Or.inr hj))
          refine ih _ _ _ _ h ?_ ?_
          · intro j hj
            rcases List.mem_append.mp hj with hsub | hpend
            · exact hsub_cov j hsub
            · exact hstack j (List.mem_cons_of_mem _ hpend)
          · exact process_inheritance_endpoints g _ vmF hcov_i _ _ hsub_cov
              (process_relations_endpoints g _ vmF hcov_i _ _ _ hp hrel_cov hinv)

theorem compute_label_preserves (e : Edge) :
    (compute_label e).id = e.id ∧ (compute_label e).source = e.source ∧
      (compute_label e).dest = e.dest ∧ (compute_label e).properties = e.properties := by
  unfold compute_label
  by_cases h : (e.properties.type == "inheritance") = true
  · simp [h]
  · rw [Bool.not_eq_true] at h
    simp [h]

/-! ### Congruence: the passes read a class only through the provider interface -/

theorem TypeEquiv_refl (t : ModelType) : TypeEquiv t t :=
  ⟨rfl, rfl, rfl, rfl, rfl⟩

theorem qname_eq_of_equiv {t t' : ModelType} (h : TypeEquiv t t') :
    get_vertex_key t = get_vertex_key t' := by
  unfold get_vertex_key get_class_name
  rw [h.1, h.2.1]

theorem class_name_eq_of_equiv {t t' : ModelType} (h : TypeEquiv t t') :
    get_class_name t = get_class_name t' := by
  unfold get_class_name
  rw [h.2.1]

theorem child_indices_eq_of_equiv {t t' : ModelType} (h : TypeEquiv t t') :
    child_indices t = child_indices t' := by
  unfold child_indices rel_targets
  rw [h.2.2.1, h.2.2.2.1]

theorem r_extract_vertices_congr (g g' : ModelGraph) (fq : Bool)
    (heq : ∀ i, TypeEquiv (typeAt g i) (typeAt g' i)) :
    ∀ fuel stack vm,
      r_extract_vertices g fq fuel stack vm = r_extract_vertices g' fq fuel stack vm := by
  intro fuel
  induction fuel with
  | zero =>
    intro stack vm
    cases stack with
    | nil => rfl
    | cons i pending => rfl
  | succ fuel ih =>
    intro stack vm
    cases stack with
    | nil => rfl
    | cons i pending =>
      have hq := qname_eq_of_equiv (heq i)
      have hcn := class_name_eq_of_equiv (heq i)
      have hci := child_indices_eq_of_equiv (heq i)
      have hm := (heq i).1
      have hb := (heq i).2.2.2.2
      simp only [r_extract_vertices, hq, hcn, hci, hm, hb]
      by_cases hv :
          (List.lookup (make_hash_id (get_vertex_key (typeAt g' i))) vm).isSome = true
      · rw [if_pos hv, if_pos hv]
        exact ih _ _
      · rw [if_neg hv, if_neg hv]
        exact ih _ _

theorem process_relations_congr (g g' : ModelGraph)
    (heq : ∀ i, TypeEquiv (typeAt g i) (typeAt g' i)) (sq sid : String) :
    ∀ rs em, process_relations g sq sid rs em = process_relations g' sq sid rs em := by
  intro rs
  induction rs with
  | nil => intro em; rfl
  | cons r rest ih =>
    intro em
    cases r with
    | mk relation_name relation =>
      have hq := qname_eq_of_equiv (heq relation.target)
      simp only [process_relations, hq]
      cases hlook : List.lookup (make_hash_id
          (compose_edge_qname relation.direction sq
            (get_vertex_key (typeAt g' relation.target)))) em with
      | none =>
        simp only
        cases hmul : RELATION_TYPE_MAP.lookup relation.direction with
        | none => rfl
        | some m => simp only; exact ih _
      | some existing_edge =>
        simp only
        cases hfs : existing_edge.properties.fields with
        | none => rfl
        | some fs => simp only; exact ih _

theorem process_inheritance_congr (g g' : ModelGraph)
    (heq : ∀ i, TypeEquiv (typeAt g i) (typeAt g' i)) (sq sid : String) :
    ∀ subs em, process_inheritance g sq sid subs em = process_inheritance g' sq sid subs em := by
  intro subs
  induction subs with
  | nil => intro em; rfl
  | cons j rest ih =>
    intro em
    have hq := qname_eq_of_equiv (heq j)
    simp only [process_inheritance, hq]
    exact ih _

theorem r_extract_edges_congr (g g' : ModelGraph)
    (heq : ∀ i, TypeEquiv (typeAt g i) (typeAt g' i)) :
    ∀ fuel stack visited em,
      r_extract_edges g fuel stack visited em = r_extract_edges g' fuel stack visited em := by
  intro fuel
  induction fuel with
  | zero =>
    intro stack visited em
    cases stack with
    | nil => rfl
    | cons i pending => rfl
  | succ fuel ih =>
    intro stack visited em
    cases stack with
    | nil => rfl
    | cons i pending =>
      have hq := qname_eq_of_equiv (heq i)
      have hr := (heq i).2.2.1
      have hs := (heq i).2.2.2.1
      simp only [r_extract_edges, hq, hr, hs]
      by_cases hv : visited.contains (get_vertex_key (typeAt g' i)) = true
      · rw [if_pos hv, if_pos hv]
        exact ih _ _ _
      · rw [if_neg hv, if_neg hv]
        rw [process_relations_congr g g' heq]
        cases hp : process_relations g' (get_vertex_key (typeAt g' i))
            (make_hash_id (get_vertex_key (typeAt g' i)))
            (iter_relationship_properties (typeAt g' i)) em with
        | error e => rfl
        | ok em' =>
          simp only
          rw [process_inheritance_congr g g' heq]
          exact ih _ _ _

theorem universe_map_congr (g g' : ModelGraph) (f : ModelType → Nat)
    (hf : ∀ t t', TypeEquiv t t' → f t = f t')
    (hlen : g.types.length = g'.types.length)
    (heq : ∀ i, TypeEquiv (typeAt g i) (typeAt g' i)) :
    (model_universe g).map f = (model_universe g').map f := by
  apply List.ext_getElem
  · simp [model_universe, hlen]
  · intro n h1 h2
    simp only [model_universe, List.map_cons, List.getElem_map] at h1 h2 ⊢
    rcases n with _ | m
    · rfl
    · simp only [List.getElem_cons_succ, List.getElem_map]
      have hm : m < g.types.length := by
        simp [model_universe] at h1
        omega
      have hm' : m < g'.types.length := by
        omega
      have e1 : g.types[m] = typeAt g m := by
        unfold typeAt
        rw [List.getD_eq_getElem g.types defaultModelType hm]
      have e2 : g'.types[m] = typeAt g' m := by
        unfold typeAt
        rw [List.getD_eq_getElem g'.types defaultModelType hm']
      rw [e1, e2]
      exact hf _ _ (heq m)

theorem vertex_fuel_congr (g g' : ModelGraph)
    (hlen : g.types.length = g'.types.length)
    (heq : ∀ i, TypeEquiv (typeAt g i) (typeAt g' i)) :
    vertex_fuel g = vertex_fuel g' := by
  unfold vertex_fuel
  rw [universe_map_congr g g' vertex_child_count ?_ hlen heq]
  intro t t' h
  unfold vertex_child_count rel_targets
  rw [h.2.2.1, h.2.2.2.1]

theorem edge_fuel_congr (g g' : ModelGraph)
    (hlen : g.types.length = g'.types.length)
    (heq : ∀ i, TypeEquiv (typeAt g i) (typeAt g' i)) :
    edge_fuel g = edge_fuel g' := by
  unfold edge_fuel
  rw [universe_map_congr g g' (fun t => t.subclasses.length) ?_ hlen heq]
  intro t t' h
  show t.subclasses.length = t'.subclasses.length
  rw [h.2.2.2.1]

theorem extract_congr (g g' : ModelGraph) (root : Nat) (fq : Bool)
    (hlen : g.types.length = g'.types.length)
    (heq : ∀ i, TypeEquiv (typeAt g i) (typeAt g' i)) :
    extract g root fq = extract g' root fq := by
  unfold extract
  rw [vertex_fuel_congr g g' hlen heq, edge_fuel_congr g g' hlen heq,
    r_extract_vertices_congr g g' fq heq, r_extract_edges_congr g g' heq]

theorem setRels_types_length (g : ModelGraph) (i : Nat)
    (r : Option (List (String × Relation))) :
    (setRels g i r).types.length = g.types.length := by
  simp [setRels]

theorem typeAt_setRels_equiv (g : ModelGraph) (i : Nat)
    (r r' : Option (List (String × Relation)))
    (hiter : r.getD [] = r'.getD []) (j : Nat) :
    TypeEquiv (typeAt (setRels g i r) j) (typeAt (setRels g i r') j) := by
  unfold typeAt setRels
  simp only [List.getD_eq_getElem?_getD, List.getElem?_set]
  by_cases hij : i = j
  · subst hij
    by_cases hlt : i < g.types.length
    · simp only [if_pos rfl, if_pos hlt]
      exact ⟨rfl, rfl, hiter, rfl, rfl⟩
    · simp only [if_pos rfl, if_neg hlt]
      exact TypeEquiv_refl _
  · simp only [if_neg hij]
    exact TypeEquiv_refl _

/-! ### One-step unfolding lemmas for the passes -/

theorem r_extract_vertices_step_skip (g : ModelGraph) (fq : Bool) (fuel i : Nat)
    (pending : List Nat) (vm : VertexMap)
    (hsome : (List.lookup (make_hash_id (get_vertex_key (typeAt g i))) vm).isSome = true) :
    r_extract_vertices g fq (fuel + 1) (i :: pending) vm =
      r_extract_vertices g fq fuel pending vm := by
  simp only [r_extract_vertices]
  rw [if_pos hsome]

theorem r_extract_vertices_step_new (g : ModelGraph) (fq : Bool) (fuel i : Nat)
    (pending : List Nat) (vm : VertexMap)
    (hnone : List.lookup (make_hash_id (get_vertex_key (typeAt g i))) vm = none) :
    r_extract_vertices g fq (fuel + 1) (i :: pending) vm =
      r_extract_vertices g fq fuel (child_indices (typeAt g i) ++ pending)
        (vm ++ [(make_hash_id (get_vertex_key (typeAt g i)),
          { id := make_hash_id (get_vertex_key (typeAt g i))
            label := if fq then get_vertex_key (typeAt g i) else get_class_name (typeAt g i)
            searchableComponents := [get_class_name (typeAt g i)]
            properties :=
              { model_name := get_class_name (typeAt g i)
                module_name := (typeAt g i).module
                base_classes := (typeAt g i).bases } })]) := by
  simp only [r_extract_vertices]
  rw [if_neg (by simp [hnone])]

theorem r_extract_edges_step_skip (g : ModelGraph) (fuel i : Nat)
    (pending : List Nat) (visited : List String) (em : EdgeMap)
    (hv : visited.contains (get_vertex_key (typeAt g i)) = true) :
    r_extract_edges g (fuel + 1) (i :: pending) visited em =
      r_extract_edges g fuel pending visited em := by
  simp only [r_extract_edges]
  rw [if_pos hv]

theorem r_extract_edges_step_err (g : ModelGraph) (fuel i : Nat)
    (pending : List Nat) (visited : List String) (em : EdgeMap) (e : ExtractError)
    (hv : visited.contains (get_vertex_key (typeAt g i)) = false)
    (hp : process_relations g (get_vertex_key (typeAt g i))
        (make_hash_id (get_vertex_key (typeAt g i)))
        (iter_relationship_properties (typeAt g i)) em = .error e) :
    r_extract_edges g (fuel + 1) (i :: pending) visited em = .error e := by
  simp only [r_extract_edges]
  rw [if_neg (by simpa using hv), hp]

theorem r_extract_edges_step_ok (g : ModelGraph) (fuel i : Nat)
    (pending : List Nat) (visited : List String) (em em' : EdgeMap)
    (hv : visited.contains (get_vertex_key (typeAt g i)) = false)
    (hp : process_relations g (get_vertex_key (typeAt g i))
        (make_hash_id (get_vertex_key (typeAt g i)))
        (iter_relationship_properties (typeAt g i)) em = .ok em') :
    r_extract_edges g (fuel + 1) (i :: pending) visited em =
      r_extract_edges g fuel ((typeAt g i).subclasses ++ pending)
        (get_vertex_key (typeAt g i) :: visited)
        (process_inheritance g (get_vertex_key (typeAt g i))
          (make_hash_id (get_vertex_key (typeAt g i))) (typeAt g i).subclasses em') := by
  simp only [r_extract_edges]
  rw [if_neg (by simpa using hv), hp]

theorem process_relations_cons_new (g : ModelGraph) (sq sid relation_name : String)
    (relation : Relation) (rest : List (String × Relation)) (em : EdgeMap)
    (multiplicity : String)
    (hlook : List.lookup (make_hash_id (compose_edge_qname relation.direction sq
        (get_vertex_key (typeAt g relation.target)))) em = none)
    (hmul : RELATION_TYPE_MAP.lookup relation.direction = some multiplicity) :
    process_relations g sq sid ((relation_name, relation) :: rest) em =
      process_relations g sq sid rest
        (em ++ [(make_hash_id (compose_edge_qname relation.direction sq
            (get_vertex_key (typeAt g relation.target))),
          { id := make_hash_id (compose_edge_qname relation.direction sq
              (get_vertex_key (typeAt g relation.target)))
            label := none
            source := sid
            dest := make_hash_id (get_vertex_key (typeAt g relation.target))
            properties :=
              { type := relation.direction
                is_self_referential := relation.is_self_referential
                fields := some [(relation_name,
                  { name := relation_name
                    back_reference := relation.backref
                    source_columns := relation.local_columns
                    dest_columns := relation.remote_side })]
                multiplicity := some multiplicity } })]) := by
  simp only [process_relations, hlook, hmul]

theorem process_relations_cons_keyerr (g : ModelGraph) (sq sid relation_name : String)
    (relation : Relation) (rest : List (String × Relation)) (em : EdgeMap)
    (hlook : List.lookup (make_hash_id (compose_edge_qname relation.direction sq
        (get_vertex_key (typeAt g relation.target)))) em = none)
    (hmul : RELATION_TYPE_MAP.lookup relation.direction = none) :
    process_relations g sq sid ((relation_name, relation) :: rest) em =
      .error (.keyError relation.direction) := by
  simp only [process_relations, hlook, hmul]

theorem process_relations_cons_merge (g : ModelGraph) (sq sid relation_name : String)
    (relation : Relation) (rest : List (String × Relation)) (em : EdgeMap)
    (existing_edge : Edge) (fs : List (String × FieldProps))
    (hlook : List.lookup (make_hash_id (compose_edge_qname relation.direction sq
        (get_vertex_key (typeAt g relation.target)))) em = some existing_edge)
    (hfs : existing_edge.properties.fields = some fs) :
    process_relations g sq sid ((relation_name, relation) :: rest) em =
      process_relations g sq sid rest
        (em.map (fun p =>
          if p.1 == make_hash_id (compose_edge_qname relation.direction sq
              (get_vertex_key (typeAt g relation.target))) then
            (make_hash_id (compose_edge_qname relation.direction sq
              (get_vertex_key (typeAt g relation.target))),
             { existing_edge with
                 properties :=
                   { existing_edge.properties with
                       fields := some (dict_insert fs relation_name
                         { name := relation_name
                           back_reference := relation.backref
                           source_columns := relation.local_columns
                           dest_columns := relation.remote_side }) } })
          else p)) := by
  simp only [process_relations, hlook, hfs]

/-! ### Helper: edges added by the inheritance loop -/

theorem process_inheritance_mem (g : ModelGraph) (sq sid : String) :
    ∀ subs em p, p ∈ process_inheritance g sq sid subs em →
      p ∈ em ∨
        (p.2.properties = (⟨"inheritance", false, none, none⟩ : EdgeProps) ∧
          p.2.source = sid ∧ p.2.id = p.1) := by
  intro subs
  induction subs with
  | nil =>
    intro em p hp
    exact Or.inl hp
  | cons j rest ih =>
    intro em p hp
    simp only [process_inheritance] at hp
    cases hlook : List.lookup (make_hash_id (compose_edge_qname "inheritance" sq
        (get_vertex_key (typeAt g j)))) em with
    | some e =>
      simp only [hlook] at hp
      exact ih _ _ hp
    | none =>
      simp only [hlook] at hp
      rcases ih _ _ hp with hmem | hprops
      · rcases List.mem_append.mp hmem with hold | hnew
        · exact Or.inl hold
        · simp only [List.mem_singleton] at hnew
          subst hnew
          exact Or.inr ⟨rfl, rfl, rfl⟩
      · exact Or.inr hprops

/-! ### Claims -/

/-- C9: for every finite model graph, even one containing relationship
cycles or subtype cycles, `extract` terminates: with the fuel it supplies,
the vertex pass completes and the edge pass never runs out of fuel (the
visited/seen guards are checked and recorded before any further work), so
the encoding's fuel-exhaustion error cannot be the result. -/
theorem C9_extract_terminates (g : ModelGraph) (root : Nat) (fq : Bool) :
    (r_extract_vertices g fq (vertex_fuel g) [root] []).isSome = true ∧
      extract g root fq ≠ Except.error ExtractError.fuelExhausted := by
  refine ⟨vertex_pass_isSome g fq root, ?_⟩
  unfold extract
  cases hV : r_extract_vertices g fq (vertex_fuel g) [root] [] with
  | none =>
    exfalso
    have hs := vertex_pass_isSome g fq root
    rw [hV] at hs
    simp at hs
  | some vm =>
    cases hE : r_extract_edges g (edge_fuel g) [root] [] [] with
    | error e =>
      intro hcontra
      have he : e = ExtractError.fuelExhausted := by
        injection hcontra
      exact edge_pass_no_fuel_error g root (he ▸ hE)
    | ok em => simp

/-- C9 witness: the termination theorem applied to the two-class
relationship cycle. -/
theorem C9_witness :
    (r_extract_vertices twoCycleGraph false (vertex_fuel twoCycleGraph) [0] []).isSome =
        true ∧
      extract twoCycleGraph 0 false ≠ Except.error ExtractError.fuelExhausted :=
  C9_extract_terminates twoCycleGraph 0 false

/-- C1 counterexample: on the two-class relationship 2-cycle rooted at `A`,
`extract` yields 2 vertices but only 1 relationship edge, not the 2 edges
(one per direction) the claim asserts. -/
theorem C1_counterexample :
    (extract twoCycleGraph 0 false).map
        (fun gr => (gr.vertices.length, gr.edges.length)) = Except.ok (2, 1) ∧
      ¬ ((extract twoCycleGraph 0 false).map
        (fun gr => (gr.vertices.length, gr.edges.length)) = Except.ok (2, 2)) := by
  exact ⟨by decide, by decide⟩

/-- C1 (amended): for the model graph of two types `A` and `B` where each
declares a relationship targeting the other, `extract(A)` terminates and
its result contains exactly 2 vertices and exactly 1 relationship edge —
the root's own outgoing edge from `A` to `B` — with no duplicate; the
`B`-to-`A` edge is absent because the edge pass recurses only into
subtypes, never into relationship targets. -/
theorem C1_two_cycle_one_edge :
    (extract twoCycleGraph 0 false).map
        (fun gr =>
          (gr.vertices.map Vertex.id,
           gr.edges.map (fun e => (e.source, e.dest, e.properties.type)))) =
      Except.ok (["m.A", "m.B"], [("m.A", "m.B", "MANYTOONE")]) := by
  decide

/-- C2 counterexample: the inheritance edges produced for `Animal`'s
subtypes carry no `multiplicity` key at all (the properties dict is built
with only `type` and `is_self_referential`), so their multiplicity is not
the claimed `"1..1"`. -/
theorem C2_counterexample :
    (extract animalGraph 0 false).map
        (fun gr => gr.edges.map (fun e => e.properties.multiplicity)) =
      Except.ok [none, none] ∧
    (none : Option String) ≠ some "1..1" := by
  exact ⟨by decide, by decide⟩

/-- C2 (amended): every edge the subclass loop adds (beyond those already
in the accumulator) has `type = "inheritance"`, `is_self_referential =
false`, no `fields` map and no `multiplicity` key, and label composition
labels it with the literal `"inheritance"`; concretely, `Animal` with
subtypes `Dog`, `Cat` yields 3 vertices and exactly one inheritance edge
per (parent, subtype) pair, both labelled `"inheritance"`. -/
theorem C2_inheritance_edges :
    (∀ (g : ModelGraph) (sq sid : String) (subs : List Nat) (em : EdgeMap)
        (p : String × Edge), p ∈ process_inheritance g sq sid subs em →
      p ∈ em ∨
        (p.2.properties.type = "inheritance" ∧
         p.2.properties.is_self_referential = false ∧
         p.2.properties.fields = none ∧
         p.2.properties.multiplicity = none ∧
         (compute_label p.2).label = some "inheritance")) ∧
    (extract animalGraph 0 false).map
        (fun gr =>
          (gr.vertices.length,
           gr.edges.map (fun e => (e.source, e.dest, e.properties.type, e.label)))) =
      Except.ok (3,
        [("m.Animal", "m.Dog", "inheritance", some "inheritance"),
         ("m.Animal", "m.Cat", "inheritance", some "inheritance")]) ∧
    (extract animalGraph 0 false).map
        (fun gr =>
          gr.edges.map (fun e =>
            (e.properties.multiplicity, e.properties.fields,
             e.properties.is_self_referential))) =
      Except.ok [(none, none, false), (none, none, false)] := by
  refine ⟨?_, ?_, ?_⟩
  · intro g sq sid subs em p hp
    rcases process_inheritance_mem g sq sid subs em p hp with hmem | hprops
    · exact Or.inl hmem
    · refine Or.inr ?_
      obtain ⟨hpr, hsrc, hid⟩ := hprops
      refine ⟨by rw [hpr], by rw [hpr], by rw [hpr], by rw [hpr], ?_⟩
      unfold compute_label
      rw [if_pos (by rw [hpr]; rfl)]
  · decide
  · decide

/-- C2 witness: the general conjunct applied to the concrete subclass loop
of the animal graph starting from an empty accumulator. -/
theorem C2_witness :
    ∀ p ∈ process_inheritance animalGraph "m.Animal" "m.Animal" [1, 2] [],
      p ∈ ([] : EdgeMap) ∨
        (p.2.properties.type = "inheritance" ∧
         p.2.properties.is_self_referential = false ∧
         p.2.properties.fields = none ∧
         p.2.properties.multiplicity = none ∧
         (compute_label p.2).label = some "inheritance") :=
  fun p hp => C2_inheritance_edges.1 animalGraph "m.Animal" "m.Animal" [1, 2] [] p hp

/-- C7 counterexample: `B` declares a relationship whose direction `FOO`
is outside the four-kind enumeration, yet `extract` rooted at `A` succeeds:
`B` is reachable only through a relationship, so the edge pass never
processes its relationships and the multiplicity table is never consulted
for `FOO`. -/
theorem C7_counterexample :
    RELATION_TYPE_MAP.lookup "FOO" = none ∧
    (iter_relationship_properties (typeAt badDirectionGraph 1)).map
        (fun p => p.2.direction) = ["FOO"] ∧
    (extract badDirectionGraph 0 false).toOption.isSome = true := by
  exact ⟨by decide, by decide, by decide⟩

/-- C7 (amended): when a relationship whose direction classification is
outside the fixed four-kind enumeration is actually processed by the edge
pass — here, the first relationship of the root type — extraction fails:
no default multiplicity is substituted and the `KeyError` carrying that
direction propagates synchronously out of `extract`, with no partial
result; relationships of types the edge pass never visits are not
checked. -/
theorem C7_unknown_direction_errors (g : ModelGraph) (root : Nat) (fq : Bool)
    (relation_name : String) (relation : Relation) (rest : List (String × Relation))
    (hrels : iter_relationship_properties (typeAt g root) =
      (relation_name, relation) :: rest)
    (hdir : RELATION_TYPE_MAP.lookup relation.direction = none) :
    extract g root fq = Except.error (ExtractError.keyError relation.direction) := by
  unfold extract
  cases hV : r_extract_vertices g fq (vertex_fuel g) [root] [] with
  | none =>
    exfalso
    have hs := vertex_pass_isSome g fq root
    rw [hV] at hs
    simp at hs
  | some vm =>
    have herr : process_relations g (get_vertex_key (typeAt g root))
        (make_hash_id (get_vertex_key (typeAt g root)))
        (iter_relationship_properties (typeAt g root)) [] =
        .error (.keyError relation.direction) := by
      rw [hrels]
      exact process_relations_cons_keyerr g _ _ _ _ _ _ rfl hdir
    obtain ⟨k, hk⟩ : ∃ k, edge_fuel g = k + 1 := ⟨_, rfl⟩
    have hE : r_extract_edges g (edge_fuel g) [root] [] [] =
        .error (.keyError relation.direction) := by
      rw [hk]
      exact r_extract_edges_step_err g k root [] [] [] _ rfl herr
    rw [hE]

/-- C7 witness: the amended theorem applied to a root class whose sole
relationship has direction `FOO`. -/
theorem C7_witness :
    extract rootBadDirectionGraph 0 false =
      Except.error (ExtractError.keyError "FOO") := by
  exact C7_unknown_direction_errors rootBadDirectionGraph 0 false "x"
    { target := 0, direction := "FOO", backref := none,
      local_columns := ["a_id"], remote_side := ["id"], is_self_referential := true }
    [] rfl (by decide)

/-- Decomposition of a successful `extract` into its two pass results. -/
theorem extract_ok_elim (g : ModelGraph) (root : Nat) (fq : Bool) (gr : Graph)
    (h : extract g root fq = .ok gr) :
    ∃ vm em, r_extract_vertices g fq (vertex_fuel g) [root] [] = some vm ∧
      r_extract_edges g (edge_fuel g) [root] [] [] = .ok em ∧
      gr.vertices = vm.map Prod.snd ∧
      gr.edges = (em.map (fun p => (p.1, compute_label p.2))).map Prod.snd := by
  unfold extract at h
  cases hV : r_extract_vertices g fq (vertex_fuel g) [root] [] with
  | none => rw [hV] at h; simp at h
  | some vm =>
    rw [hV] at h
    cases hE : r_extract_edges g (edge_fuel g) [root] [] [] with
    | error e => rw [hE] at h; simp at h
    | ok em =>
      rw [hE] at h
      simp only at h
      have hgr := Except.ok.inj h
      exact ⟨vm, em, rfl, rfl, by rw [← hgr], by rw [← hgr]⟩

/-- Assembly of `extract` from explicitly computed pass results. -/
theorem extract_eq_of (g : ModelGraph) (root : Nat) (fq : Bool)
    (vm : VertexMap) (em : EdgeMap)
    (hV : r_extract_vertices g fq (vertex_fuel g) [root] [] = some vm)
    (hE : r_extract_edges g (edge_fuel g) [root] [] [] = .ok em) :
    extract g root fq =
      .ok { vertices := vm.map Prod.snd
            edges := (em.map (fun p => (p.1, compute_label p.2))).map Prod.snd } := by
  unfold extract
  rw [hV, hE]

/-- Shared invariant of any successful extraction: vertex ids are pairwise
distinct and each is the hash of the vertex's own qualified name. -/
theorem extract_vertices_invariant (g : ModelGraph) (root : Nat) (fq : Bool) (gr : Graph)
    (h : extract g root fq = .ok gr) :
    (gr.vertices.map Vertex.id).Nodup ∧
      (gr.vertices.all fun v =>
        v.id == make_hash_id (v.properties.module_name ++ "." ++
          v.properties.model_name)) = true := by
  obtain ⟨vm, em, hV, hE, hvs, hes⟩ := extract_ok_elim g root fq gr h
  have hentries := r_extract_vertices_entries g fq _ _ _ _ hV (by intro p hp; simp at hp)
  have hkeys := r_extract_vertices_keys_nodup g fq _ _ _ _ hV (by simp)
  have hmapeq : (vm.map Prod.snd).map Vertex.id = vm.map Prod.fst := by
    rw [List.map_map]
    apply List.map_congr_left
    intro p hp
    exact (hentries p hp).1
  constructor
  · rw [hvs, hmapeq]
    exact hkeys
  · rw [hvs]
    rw [List.all_eq_true]
    intro v hv
    rcases List.mem_map.mp hv with ⟨p, hp, rfl⟩
    exact beq_iff_eq.mpr (hentries p hp).2

/-- C4: throughout vertex extraction the accumulator holds at most one
vertex per distinct qualified name — in any successful `extract` result the
vertex ids (hashes of the qualified names recorded in each vertex's own
properties) are pairwise distinct, so the first visit of a type wins and
later visits are no-ops. -/
theorem C4_vertex_dedup (g : ModelGraph) (root : Nat) (fq : Bool) (gr : Graph)
    (h : extract g root fq = .ok gr) :
    (gr.vertices.map Vertex.id).Nodup ∧
      (gr.vertices.all fun v =>
        v.id == make_hash_id (v.properties.module_name ++ "." ++
          v.properties.model_name)) = true :=
  extract_vertices_invariant g root fq gr h

/-- C4 witness: the diamond hierarchy (`D` extends `B` and `C`, both extend
`A`) yields pairwise-distinct vertex ids and exactly 4 vertices. -/
theorem C4_witness :
    ((((extract diamondGraph 0 false).toOption.getD defaultGraph).vertices.map
        Vertex.id).Nodup ∧
      ((((extract diamondGraph 0 false).toOption.getD defaultGraph).vertices.all fun v =>
        v.id == make_hash_id (v.properties.module_name ++ "." ++
          v.properties.model_name))) = true) ∧
    ((extract diamondGraph 0 false).toOption.getD defaultGraph).vertices.length = 4 := by
  refine ⟨C4_vertex_dedup diamondGraph 0 false _ ?_, by decide⟩
  decide

/-- C5: for a fixed model graph, two invocations of `extract` on the same
root produce graphs with identical vertex-id and edge-id sequences, and
every id is a pure function of the qualified name (vertices) or the
composed key of type, source and dest (edges). -/
theorem C5_determinism (g : ModelGraph) (root : Nat) (fq : Bool) (gr gr' : Graph)
    (h : extract g root fq = .ok gr) (h' : extract g root fq = .ok gr') :
    gr.vertices.map Vertex.id = gr'.vertices.map Vertex.id ∧
    gr.edges.map Edge.id = gr'.edges.map Edge.id ∧
    (gr.vertices.all fun v =>
      v.id == make_hash_id (v.properties.module_name ++ "." ++
        v.properties.model_name)) = true ∧
    (gr.edges.all fun e =>
      e.id == make_hash_id
        (compose_edge_qname e.properties.type e.source e.dest)) = true := by
  have hgr : gr = gr' := by
    rw [h] at h'
    exact Except.ok.inj h'
  subst hgr
  refine ⟨rfl, rfl, (extract_vertices_invariant g root fq gr h).2, ?_⟩
  obtain ⟨vm, em, hV, hE, hvs, hes⟩ := extract_ok_elim g root fq gr h
  have hentries := r_extract_edges_entries g _ _ _ _ _ hE (by intro p hp; simp at hp)
  rw [hes, List.all_eq_true]
  intro e he
  rcases List.mem_map.mp he with ⟨q, hq, rfl⟩
  rcases List.mem_map.mp hq with ⟨p, hp, rfl⟩
  have hok := hentries p hp
  have hpres := compute_label_preserves p.2
  simp only
  refine beq_iff_eq.mpr ?_
  rw [hpres.1, hpres.2.1, hpres.2.2.1, hpres.2.2.2]
  exact hok.2

/-- C5 witness: the determinism and id-purity theorem applied to the
animal graph. -/
theorem C5_witness :
    (((extract animalGraph 0 false).toOption.getD defaultGraph).vertices.all fun v =>
      v.id == make_hash_id (v.properties.module_name ++ "." ++
        v.properties.model_name)) = true ∧
    (((extract animalGraph 0 false).toOption.getD defaultGraph).edges.all fun e =>
      e.id == make_hash_id
        (compose_edge_qname e.properties.type e.source e.dest)) = true := by
  have h := C5_determinism animalGraph 0 false
    ((extract animalGraph 0 false).toOption.getD defaultGraph)
    ((extract animalGraph 0 false).toOption.getD defaultGraph) (by decide) (by decide)
  exact ⟨h.2.2.1, h.2.2.2⟩

/-- C10: in every graph returned by `extract` (for a provider meeting the
unique-qualified-name contract), there are no dangling edges: every edge's
source id and dest id are ids of vertices in the result. -/
theorem C10_no_dangling (g : ModelGraph) (root : Nat) (fq : Bool) (gr : Graph)
    (hq : QNamesNodup g) (h : extract g root fq = .ok gr) :
    (gr.edges.all fun e =>
      (gr.vertices.any fun v => v.id == e.source) &&
      (gr.vertices.any fun v => v.id == e.dest)) = true := by
  obtain ⟨vm, em, hV, hE, hvs, hes⟩ := extract_ok_elim g root fq gr h
  have hclo := r_extract_vertices_closure g fq hq _ _ _ _ hV
    (by
      intro i c hcov hc
      unfold covered at hcov
      simp [List.lookup] at hcov)
  have hrootcov : covered g vm root := by
    obtain ⟨k, hk⟩ : ∃ k, vertex_fuel g = k + 1 := ⟨_, rfl⟩
    rw [hk, r_extract_vertices_step_new g fq k root [] [] rfl] at hV
    refine r_extract_vertices_lookup_mono g fq _ _ _ _ hV _ ?_
    simp [List.lookup]
  have hend := r_extract_edges_endpoints g vm hclo _ _ _ _ _ hE
    (by
      intro i hi
      rcases List.mem_singleton.mp hi with rfl
      exact hrootcov)
    (by intro p hp; simp at hp)
  have hventries := r_extract_vertices_entries g fq _ _ _ _ hV
    (by intro p hp; simp at hp)
  rw [hes, hvs, List.all_eq_true]
  intro e he
  rcases List.mem_map.mp he with ⟨q, hq', rfl⟩
  rcases List.mem_map.mp hq' with ⟨p, hp, rfl⟩
  have hep := hend p hp
  have hpres := compute_label_preserves p.2
  rw [Bool.and_eq_true]
  constructor
  · rw [List.any_eq_true]
    obtain ⟨v, hvlook⟩ : ∃ v, List.lookup p.2.source vm = some v :=
      Option.isSome_iff_exists.mp hep.1
    have hm := mem_of_lookup_eq_some hvlook
    refine ⟨v, List.mem_map.mpr ⟨(p.2.source, v), hm, rfl⟩, ?_⟩
    simp only
    rw [hpres.2.1]
    exact beq_iff_eq.mpr (hventries _ hm).1
  · rw [List.any_eq_true]
    obtain ⟨v, hvlook⟩ : ∃ v, List.lookup p.2.dest vm = some v :=
      Option.isSome_iff_exists.mp hep.2
    have hm := mem_of_lookup_eq_some hvlook
    refine ⟨v, List.mem_map.mpr ⟨(p.2.dest, v), hm, rfl⟩, ?_⟩
    simp only
    rw [hpres.2.2.1]
    exact beq_iff_eq.mpr (hventries _ hm).1

/-- C10 witness: the no-dangling-edges theorem applied to the two-class
relationship cycle. -/
theorem C10_witness :
    ((((extract twoCycleGraph 0 false).toOption.getD defaultGraph).edges.all fun e =>
      (((extract twoCycleGraph 0 false).toOption.getD defaultGraph).vertices.any
        fun v => v.id == e.source) &&
      (((extract twoCycleGraph 0 false).toOption.getD defaultGraph).vertices.any
        fun v => v.id == e.dest))) = true :=
  C10_no_dangling twoCycleGraph 0 false _
    (by unfold QNamesNodup; decide) (by decide)

/-- C6: when the reflection provider cannot produce relationship metadata
for a type, extraction does not abort — the graph extracted with that
type's relationships unavailable equals the one extracted with the type
declaring no relationships at all; concretely, the animal graph with the
root's metadata unavailable still yields all 3 vertices and both
inheritance edges. -/
theorem C6_reflection_unavailable :
    (∀ (g : ModelGraph) (i root : Nat) (fq : Bool),
      extract (setRels g i none) root fq = extract (setRels g i (some [])) root fq) ∧
    (extract animalGraphNoInspect 0 false).map
        (fun gr =>
          (gr.vertices.map Vertex.id,
           gr.edges.map (fun e => (e.source, e.dest, e.label)))) =
      .ok (["m.Animal", "m.Dog", "m.Cat"],
           [("m.Animal", "m.Dog", some "inheritance"),
            ("m.Animal", "m.Cat", some "inheritance")]) := by
  constructor
  · intro g i root fq
    apply extract_congr
    · rw [setRels_types_length, setRels_types_length]
    · intro j
      exact typeAt_setRels_equiv g i none (some []) rfl j
  · decide

/-- C6 witness: the equivalence applied to the animal graph with the
root's relationship metadata unavailable. -/
theorem C6_witness :
    extract animalGraphNoInspect 0 false =
      extract (setRels animalGraph 0 (some [])) 0 false :=
  C6_reflection_unavailable.1 animalGraph 0 0 false

/-- Helper: popping a single node whose vertex is already stored finishes
the vertex pass. -/
theorem rv_single_self (g : ModelGraph) (fq : Bool) (fuel i : Nat) (vm : VertexMap)
    (hcov : (List.lookup (make_hash_id (get_vertex_key (typeAt g i))) vm).isSome = true) :
    r_extract_vertices g fq (fuel + 1) [i] vm = some vm := by
  rw [r_extract_vertices_step_skip g fq fuel i [] vm hcov]
  cases fuel with
  | zero => rfl
  | succ k => rfl

/-- Assembly of `extract` from explicitly computed pass results, with the
fuel values given by separate equations. -/
theorem extract_eq_of_fuel (g : ModelGraph) (root : Nat) (fq : Bool)
    (vm : VertexMap) (em : EdgeMap) (fv fe : Nat)
    (hfv : vertex_fuel g = fv) (hfe : edge_fuel g = fe)
    (hV : r_extract_vertices g fq fv [root] [] = some vm)
    (hE : r_extract_edges g fe [root] [] [] = .ok em) :
    extract g root fq =
      .ok { vertices := vm.map Prod.snd
            edges := (em.map (fun p => (p.1, compute_label p.2))).map Prod.snd } := by
  unfold extract
  rw [hfv, hfe, hV, hE]

/-- C8: a model graph consisting of a single type with one relationship
whose target is the type itself (and whose provider-computed
self-referential flag is therefore set) yields exactly 1 vertex and one
relationship edge whose source id equals its dest id and whose
`is_self_referential` property is true. -/
theorem C8_self_reference (t : ModelType) (n : String) (r : Relation) (fq : Bool)
    (mult : String)
    (hrels : t.relationships = some [(n, r)])
    (hsubs : t.subclasses = [])
    (htgt : r.target = 0)
    (hself : r.is_self_referential = true)
    (hdir : RELATION_TYPE_MAP.lookup r.direction = some mult) :
    (extract ⟨[t]⟩ 0 fq).map (fun gr =>
      (gr.vertices.length,
       gr.edges.map (fun e => (e.source == e.dest, e.properties.is_self_referential)))) =
      Except.ok (1, [(true, true)]) := by
  have hiter : iter_relationship_properties (typeAt ⟨[t]⟩ 0) = [(n, r)] := by
    show t.relationships.getD [] = [(n, r)]
    rw [hrels]
    rfl
  have hchild : child_indices (typeAt ⟨[t]⟩ 0) = [0] := by
    unfold child_indices rel_targets
    rw [hiter]
    show [r.target] ++ t.subclasses = [0]
    rw [htgt, hsubs]
    rfl
  have hvf : vertex_fuel ⟨[t]⟩ = 1 + 1 := by
    simp [vertex_fuel, model_universe, vertex_child_count, rel_targets,
      iter_relationship_properties, hrels, hsubs, defaultModelType]
  have hef : edge_fuel ⟨[t]⟩ = 0 + 1 := by
    simp [edge_fuel, model_universe, hsubs, defaultModelType]
  have h1 := r_extract_vertices_step_new ⟨[t]⟩ fq 1 0 [] [] rfl
  rw [hchild] at h1
  have hV := h1.trans (rv_single_self ⟨[t]⟩ fq 0 0 _ (by simp [List.lookup]))
  have hpr0 : process_relations ⟨[t]⟩ (get_vertex_key (typeAt ⟨[t]⟩ 0))
      (make_hash_id (get_vertex_key (typeAt ⟨[t]⟩ 0)))
      (iter_relationship_properties (typeAt ⟨[t]⟩ 0)) [] =
      process_relations ⟨[t]⟩ (get_vertex_key (typeAt ⟨[t]⟩ 0))
      (make_hash_id (get_vertex_key (typeAt ⟨[t]⟩ 0))) [(n, r)] [] := by
    rw [hiter]
  have hE0 := r_extract_edges_step_ok ⟨[t]⟩ 0 0 [] [] [] _ rfl
    (hpr0.trans ((process_relations_cons_new ⟨[t]⟩ _ _ n r [] [] mult rfl hdir).trans rfl))
  have hsubs' : (typeAt ⟨[t]⟩ 0).subclasses = [] := hsubs
  rw [hsubs'] at hE0
  rw [extract_eq_of_fuel ⟨[t]⟩ 0 fq _ _ _ _ hvf hef hV (hE0.trans rfl)]
  have hpres := compute_label_preserves
    { id := make_hash_id (compose_edge_qname r.direction
        (get_vertex_key (typeAt ⟨[t]⟩ 0)) (get_vertex_key (typeAt ⟨[t]⟩ r.target)))
      label := none
      source := make_hash_id (get_vertex_key (typeAt ⟨[t]⟩ 0))
      dest := make_hash_id (get_vertex_key (typeAt ⟨[t]⟩ r.target))
      properties :=
        { type := r.direction
          is_self_referential := r.is_self_referential
          fields := some [(n,
            { name := n
              back_reference := r.backref
              source_columns := r.local_columns
              dest_columns := r.remote_side })]
          multiplicity := some mult } }
  simp only [Except.map, List.map_cons, List.map_nil, List.map_append,
    List.nil_append, List.length_cons, List.length_nil, process_inheritance]
  rw [hpres.2.1, hpres.2.2.1, hpres.2.2.2]
  simp [htgt, hself]

/-- Core of the edge-merging argument, for any direction string that is in
the multiplicity table, differs from `inheritance`, and has a non-empty
multiplicity. -/
theorem C3_core (n1 n2 d mult : String) (fq : Bool)
    (hb : (n2 == n1) = false)
    (hdir : RELATION_TYPE_MAP.lookup d = some mult)
    (hd_ne_inh : (d == "inheritance") = false)
    (hmult_ne : mult.isEmpty = false) :
    (extract (articleGraph n1 n2 d) 0 fq).map (fun gr =>
      gr.edges.map (fun e => (e.id, e.source, e.dest, e.properties.type,
        (e.properties.fields.getD []).map Prod.fst, e.label))) =
      Except.ok [(make_hash_id (compose_edge_qname d "m.Article" "m.Person"),
        "m.Article", "m.Person", d, [n1, n2],
        some (String.intercalate ", " (sortStrings [n1, n2]) ++ " (" ++ mult ++ ")"))] := by
  have hvf : vertex_fuel (articleGraph n1 n2 d) = 2 + 1 := rfl
  have hef : edge_fuel (articleGraph n1 n2 d) = 0 + 1 := rfl
  have hV := (r_extract_vertices_step_new (articleGraph n1 n2 d) fq 2 0 [] [] rfl).trans
    ((r_extract_vertices_step_new (articleGraph n1 n2 d) fq 1 1 [1] _ (by rfl)).trans
      (rv_single_self (articleGraph n1 n2 d) fq 0 1 _ (by rfl)))
  have hpA := process_relations_cons_new (articleGraph n1 n2 d)
    (get_vertex_key (typeAt (articleGraph n1 n2 d) 0))
    (make_hash_id (get_vertex_key (typeAt (articleGraph n1 n2 d) 0)))
    n1 { target := 1, direction := d, backref := none,
         local_columns := ["p1_id"], remote_side := ["id"], is_self_referential := false }
    [(n2, { target := 1, direction := d, backref := none,
            local_columns := ["p2_id"], remote_side := ["id"],
            is_self_referential := false })]
    [] mult rfl hdir
  have hpB := process_relations_cons_merge (articleGraph n1 n2 d)
    (get_vertex_key (typeAt (articleGraph n1 n2 d) 0))
    (make_hash_id (get_vertex_key (typeAt (articleGraph n1 n2 d) 0)))
    n2 { target := 1, direction := d, backref := none,
         local_columns := ["p2_id"], remote_side := ["id"], is_self_referential := false }
    []
    [(make_hash_id (compose_edge_qname d
        (get_vertex_key (typeAt (articleGraph n1 n2 d) 0))
        (get_vertex_key (typeAt (articleGraph n1 n2 d) 1))),
      { id := make_hash_id (compose_edge_qname d
          (get_vertex_key (typeAt (articleGraph n1 n2 d) 0))
          (get_vertex_key (typeAt (articleGraph n1 n2 d) 1)))
        label := none
        source := make_hash_id (get_vertex_key (typeAt (articleGraph n1 n2 d) 0))
        dest := make_hash_id (get_vertex_key (typeAt (articleGraph n1 n2 d) 1))
        properties :=
          { type := d
            is_self_referential := false
            fields := some [(n1,
              { name := n1
                back_reference := none
                source_columns := ["p1_id"]
                dest_columns := ["id"] })]
            multiplicity := some mult } })]
    { id := make_hash_id (compose_edge_qname d
        (get_vertex_key (typeAt (articleGraph n1 n2 d) 0))
        (get_vertex_key (typeAt (articleGraph n1 n2 d) 1)))
      label := none
      source := make_hash_id (get_vertex_key (typeAt (articleGraph n1 n2 d) 0))
      dest := make_hash_id (get_vertex_key (typeAt (articleGraph n1 n2 d) 1))
      properties :=
        { type := d
          is_self_referential := false
          fields := some [(n1,
            { name := n1
              back_reference := none
              source_columns := ["p1_id"]
              dest_columns := ["id"] })]
          multiplicity := some mult } }
    [(n1, { name := n1, back_reference := none,
            source_columns := ["p1_id"], dest_columns := ["id"] })]
    (by simp [List.lookup]) rfl
  have hE0 := r_extract_edges_step_ok (articleGraph n1 n2 d) 0 0 [] [] [] _ rfl
    (hpA.trans (hpB.trans rfl))
  rw [extract_eq_of_fuel (articleGraph n1 n2 d) 0 fq _ _ _ _ hvf hef hV (hE0.trans rfl)]
  have hd_ne : ¬ (d = "inheritance") := by simpa using hd_ne_inh
  have hn_ne : ¬ (n2 = n1) := by simpa using hb
  have hn_ne' : ¬ (n1 = n2) := fun hc => hn_ne hc.symm
  simp [Except.map, compute_label, dict_insert, process_inheritance, List.lookup,
    hb, hn_ne, hn_ne', hd_ne, hmult_ne, get_vertex_key, get_class_name, typeAt,
    articleGraph, defaultModelType, make_hash_id, compose_edge_qname]

/-- C3: two relationships processed for the same source that share the
direction classification and the target type (hence the same composed edge
id) but have different names merge into exactly one edge whose `fields`
map holds one entry per relationship name, and whose final label is the
comma-joined, lexicographically sorted list of those names followed by the
multiplicity in parentheses. -/
theorem C3_edge_merging (n1 n2 d mult : String) (fq : Bool)
    (hne : n1 ≠ n2)
    (hd : d ∈ (["MANYTOMANY", "MANYTOONE", "ONETOMANY", "ONETOONE"] : List String))
    (hdir : RELATION_TYPE_MAP.lookup d = some mult) :
    (extract (articleGraph n1 n2 d) 0 fq).map (fun gr =>
      gr.edges.map (fun e => (e.id, e.source, e.dest, e.properties.type,
        (e.properties.fields.getD []).map Prod.fst, e.label))) =
      Except.ok [(make_hash_id (compose_edge_qname d "m.Article" "m.Person"),
        "m.Article", "m.Person", d, [n1, n2],
        some (String.intercalate ", " (sortStrings [n1, n2]) ++ " (" ++ mult ++ ")"))] := by
  have hb : (n2 == n1) = false := beq_eq_false_iff_ne.mpr (fun hc => hne hc.symm)
  simp only [List.mem_cons, List.not_mem_nil, or_false] at hd
  rcases hd with rfl | rfl | rfl | rfl
  · obtain rfl : mult = "*..*" := Option.some.inj
      ((by decide : RELATION_TYPE_MAP.lookup "MANYTOMANY" = some "*..*").symm.trans hdir).symm
    exact C3_core n1 n2 _ _ fq hb hdir (by decide) (by decide)
  · obtain rfl : mult = "*..1" := Option.some.inj
      ((by decide : RELATION_TYPE_MAP.lookup "MANYTOONE" = some "*..1").symm.trans hdir).symm
    exact C3_core n1 n2 _ _ fq hb hdir (by decide) (by decide)
  · obtain rfl : mult = "1..*" := Option.some.inj
      ((by decide : RELATION_TYPE_MAP.lookup "ONETOMANY" = some "1..*").symm.trans hdir).symm
    exact C3_core n1 n2 _ _ fq hb hdir (by decide) (by decide)
  · obtain rfl : mult = "1..1" := Option.some.inj
      ((by decide : RELATION_TYPE_MAP.lookup "ONETOONE" = some "1..1").symm.trans hdir).symm
    exact C3_core n1 n2 _ _ fq hb hdir (by decide) (by decide)

/-- C3 witness: the merging theorem at the spec's `author`/`editor`
example, producing the label `author, editor (*..1)`. -/
theorem C3_witness :
    (extract (articleGraph "author" "editor" "MANYTOONE") 0 false).map (fun gr =>
      gr.edges.map (fun e => (e.id, e.source, e.dest, e.properties.type,
        (e.properties.fields.getD []).map Prod.fst, e.label))) =
      Except.ok [("MANYTOONE(m.Article,m.Person)", "m.Article", "m.Person", "MANYTOONE",
        ["author", "editor"], some "author, editor (*..1)")] := by
  have h := C3_edge_merging "author" "editor" "MANYTOONE" "*..1" false
    (by decide) (by decide) (by decide)
  exact h.trans (by decide)

/-- C8 witness: the self-reference theorem at the concrete single-class
graph. -/
theorem C8_witness :
    (extract selfRefGraph 0 false).map (fun gr =>
      (gr.vertices.length,
       gr.edges.map (fun e => (e.source == e.dest, e.properties.is_self_referential)))) =
      Except.ok (1, [(true, true)]) :=
  C8_self_reference
    { module := "m", name := "Node",
      relationships := some
        [("parent", { target := 0, direction := "MANYTOONE", backref := some "children",
                      local_columns := ["parent_id"], remote_side := ["id"],
                      is_self_referential := true })],
      subclasses := [], bases := ["Node", "object"] }
    "parent"
    { target := 0, direction := "MANYTOONE", backref := some "children",
      local_columns := ["parent_id"], remote_side := ["id"],
      is_self_referential := true }
    false "*..1" rfl rfl rfl rfl (by decide)
